import Mathlib

/-!
# Verification of the opwire-testkit invocation-and-capture pipeline

A shallow embedding of `lib/engine/HttpInvoker.go`: the HTTP invoker `Do`,
the interceptor dispatch, the expectation synthesizer `generateExpectation`
(with its JSON → YAML → flat content-sniffing chain) and the snapshot
serializer `generateTestCase`, together with executable models of the
external codec libraries (`encoding/json` restricted to object trees over
safe ASCII strings and decimal integers, and `gopkg.in/yaml.v2` restricted
to flat block mappings of plain scalars).

Go maps are embedded as association lists: a canonical (key-sorted) list
models the value stored in a map, while an arbitrarily ordered list models
one possible iteration order of that map, so the randomized iteration order
of Go maps is represented by quantifying over permutations.
-/

namespace Opwire

/-! ## Characters and decimal digits -/

/-- JSON whitespace, as accepted by `encoding/json`: space, tab, newline,
carriage return. -/
def wsChar (c : Char) : Bool :=
  c = ' ' || c = '\t' || c = '\n' || c = '\r'

/-- Drop leading whitespace characters. -/
def skipWs : List Char → List Char
  | [] => []
  | c :: t => if wsChar c then skipWs t else c :: t

theorem skipWs_nil : skipWs [] = [] := rfl

theorem skipWs_cons_ws {c : Char} (h : wsChar c = true) (l : List Char) :
    skipWs (c :: l) = skipWs l := by
  simp [skipWs, h]

theorem skipWs_cons_not {c : Char} (h : wsChar c = false) (l : List Char) :
    skipWs (c :: l) = c :: l := by
  simp [skipWs, h]

theorem skipWs_append_ws {w : List Char} (h : ∀ c ∈ w, wsChar c = true)
    (l : List Char) : skipWs (w ++ l) = skipWs l := by
  induction w with
  | nil => rfl
  | cons c t ih =>
    have hc : wsChar c = true := h c (List.mem_cons_self ..)
    have ht : ∀ c ∈ t, wsChar c = true := fun c hm => h c (List.mem_cons_of_mem _ hm)
    simp [skipWs_cons_ws hc, ih ht]

/-- The numeric value of a decimal digit character. -/
def digitVal (c : Char) : Nat := c.toNat - '0'.toNat

/-- The decimal digit character for a value below ten. -/
def digitChar (n : Nat) : Char := Char.ofNat ('0'.toNat + n)

theorem digitVal_digitChar {n : Nat} (h : n < 10) :
    digitVal (digitChar n) = n := by
  interval_cases n <;> decide

theorem isDigit_digitChar {n : Nat} (h : n < 10) :
    (digitChar n).isDigit = true := by
  interval_cases n <;> decide

theorem digitChar_eq_zero_iff {n : Nat} (h : n < 10) :
    digitChar n = '0' ↔ n = 0 := by
  interval_cases n <;> decide

/-- The decimal digit string of a natural number, most significant first. -/
def natDigits (n : Nat) : List Char :=
  if h : n < 10 then [digitChar n]
  else natDigits (n / 10) ++ [digitChar (n % 10)]
  decreasing_by
    have h10 : 10 ≤ n := Nat.le_of_not_lt h
    exact Nat.div_lt_self (by omega) (by omega)

theorem natDigits_small {n : Nat} (h : n < 10) :
    natDigits n = [digitChar n] := by
  rw [natDigits]; simp [h]

theorem natDigits_large {n : Nat} (h : ¬ n < 10) :
    natDigits n = natDigits (n / 10) ++ [digitChar (n % 10)] := by
  conv_lhs => rw [natDigits]
  simp [h]

theorem natDigits_ne_nil (n : Nat) : natDigits n ≠ [] := by
  by_cases h : n < 10
  · rw [natDigits_small h]; simp
  · rw [natDigits_large h]; simp

theorem natDigits_all_digit (n : Nat) : ∀ c ∈ natDigits n, c.isDigit = true := by
  induction n using Nat.strong_induction_on with
  | _ n ih =>
    by_cases h : n < 10
    · rw [natDigits_small h]
      intro c hc
      rw [List.mem_singleton] at hc
      subst hc
      exact isDigit_digitChar h
    · rw [natDigits_large h]
      intro c hc
      rw [List.mem_append] at hc
      rcases hc with hc | hc
      · exact ih (n / 10) (Nat.div_lt_self (by omega) (by omega)) c hc
      · rw [List.mem_singleton] at hc
        subst hc
        exact isDigit_digitChar (Nat.mod_lt _ (by omega))

/-- The leading digit of a nonzero number is not `'0'`. -/
theorem natDigits_head_ne_zero {n : Nat} (hn : n ≠ 0) :
    ∃ c cs, natDigits n = c :: cs ∧ c ≠ '0' := by
  induction n using Nat.strong_induction_on with
  | _ n ih =>
    by_cases h : n < 10
    · refine ⟨digitChar n, [], natDigits_small h, ?_⟩
      intro hc
      exact hn ((digitChar_eq_zero_iff h).mp hc)
    · rw [natDigits_large h]
      have hd : n / 10 ≠ 0 := by omega
      obtain ⟨c, cs, heq, hne⟩ := ih (n / 10) (Nat.div_lt_self (by omega) (by omega)) hd
      exact ⟨c, cs ++ [digitChar (n % 10)], by rw [heq]; rfl, hne⟩

theorem natDigits_zero : natDigits 0 = ['0'] := by
  rw [natDigits_small (by omega)]; rfl

/-- Decimal value of a digit string. -/
def digitsVal (l : List Char) : Nat :=
  l.foldl (fun a c => a * 10 + digitVal c) 0

theorem digitsVal_append_singleton (l : List Char) (c : Char) :
    digitsVal (l ++ [c]) = digitsVal l * 10 + digitVal c := by
  simp [digitsVal, List.foldl_append]

theorem digitsVal_natDigits (n : Nat) : digitsVal (natDigits n) = n := by
  induction n using Nat.strong_induction_on with
  | _ n ih =>
    by_cases h : n < 10
    · rw [natDigits_small h]
      simp [digitsVal, digitVal_digitChar h]
    · rw [natDigits_large h, digitsVal_append_singleton,
        ih (n / 10) (Nat.div_lt_self (by omega) (by omega)),
        digitVal_digitChar (Nat.mod_lt _ (by omega))]
      omega

/-- Split off a maximal run of leading decimal digits. -/
def takeDigits : List Char → List Char × List Char
  | [] => ([], [])
  | c :: t =>
    if c.isDigit then
      let p := takeDigits t
      (c :: p.1, p.2)
    else ([], c :: t)

theorem takeDigits_eq {ds rest : List Char} (hds : ∀ c ∈ ds, c.isDigit = true)
    (hrest : ∀ c cs, rest = c :: cs → c.isDigit = false) :
    takeDigits (ds ++ rest) = (ds, rest) := by
  induction ds with
  | nil =>
    cases rest with
    | nil => rfl
    | cons c cs => simp [takeDigits, hrest c cs rfl]
  | cons c t ih =>
    have hc : c.isDigit = true := hds c (List.mem_cons_self ..)
    have ht : ∀ x ∈ t, x.isDigit = true := fun x hm => hds x (List.mem_cons_of_mem _ hm)
    simp [takeDigits, hc, ih ht]

/-! ## Integer literals

`encoding/json` decodes numbers into `float64`; the model restricts bodies to
numbers written as decimal integers without leading zeros (for which the Go
decode/encode cycle is exact and agrees with integer arithmetic), and rejects
fraction/exponent forms, mirroring Go's syntax checks on the covered fragment
conservatively. -/

/-- A character that may legally follow a (model) integer literal: anything
that does not extend the literal into a longer digit run or a float form. -/
def goodNumTail : List Char → Bool
  | [] => true
  | c :: _ => !c.isDigit && !(c = '.' || c = 'e' || c = 'E')

/-- Reject continuations that would turn the digit run into a float literal. -/
def badNumTail : List Char → Bool
  | [] => false
  | c :: _ => c = '.' || c = 'e' || c = 'E'

/-- Parse an unsigned decimal integer without leading zeros. -/
def parseNumCore (l : List Char) : Option (Nat × List Char) :=
  match takeDigits l with
  | ([], _) => none
  | (d :: ds, r) =>
    if d = '0' && !ds.isEmpty then none
    else if badNumTail r then none
    else some (digitsVal (d :: ds), r)

/-- Parse a (possibly negative) decimal integer; `-0` and leading zeros are
rejected, as `encoding/json` either rejects them or decodes a distinct
float value. -/
def parseNum (l : List Char) : Option (Int × List Char) :=
  match l with
  | '-' :: t =>
    match parseNumCore t with
    | none => none
    | some (v, r) => if v = 0 then none else some (-(v : Int), r)
  | _ => (parseNumCore l).map (fun p => ((p.1 : Int), p.2))

/-- Print a natural number in decimal. -/
def natChars (n : Nat) : List Char := natDigits n

/-- Print an integer in decimal, matching Go's rendering of integral values. -/
def intChars (n : Int) : List Char :=
  if n < 0 then '-' :: natDigits n.natAbs else natDigits n.natAbs

theorem goodNumTail_not_digit {rest : List Char} (h : goodNumTail rest = true) :
    ∀ c cs, rest = c :: cs → c.isDigit = false := by
  intro c cs hr
  subst hr
  simp [goodNumTail] at h
  exact h.1

theorem badNumTail_of_goodNumTail {rest : List Char} (h : goodNumTail rest = true) :
    badNumTail rest = false := by
  cases rest with
  | nil => rfl
  | cons c cs =>
    simp [goodNumTail] at h
    simp [badNumTail]
    tauto

theorem parseNumCore_natDigits {n : Nat} {rest : List Char}
    (hrest : goodNumTail rest = true) :
    parseNumCore (natDigits n ++ rest) = some (n, rest) := by
  have htd : takeDigits (natDigits n ++ rest) = (natDigits n, rest) :=
    takeDigits_eq (natDigits_all_digit n) (goodNumTail_not_digit hrest)
  by_cases hn : n = 0
  · subst hn
    rw [natDigits_zero] at htd ⊢
    simp only [parseNumCore]
    rw [htd]
    simp [badNumTail_of_goodNumTail hrest]
    decide
  · obtain ⟨c, cs, heq, hne⟩ := natDigits_head_ne_zero hn
    simp only [parseNumCore]
    rw [htd, heq]
    simp [hne, badNumTail_of_goodNumTail hrest]
    rw [← heq, digitsVal_natDigits]

theorem parseNum_intChars {n : Int} {rest : List Char}
    (hrest : goodNumTail rest = true) :
    parseNum (intChars n ++ rest) = some (n, rest) := by
  by_cases hneg : n < 0
  · have habs : n.natAbs ≠ 0 := by omega
    simp only [intChars, if_pos hneg, List.cons_append]
    simp only [parseNum]
    rw [parseNumCore_natDigits hrest]
    simp only [habs, if_false, Option.some.injEq, Prod.mk.injEq]
    exact ⟨by omega, trivial⟩
  · have hval : (n.natAbs : Int) = n := by omega
    have hhead : ∃ c cs, natDigits n.natAbs = c :: cs ∧ c ≠ '-' := by
      cases hnd : natDigits n.natAbs with
      | nil => exact absurd hnd (natDigits_ne_nil _)
      | cons c cs =>
        have hdig := natDigits_all_digit n.natAbs c (hnd ▸ List.mem_cons_self ..)
        refine ⟨c, cs, rfl, fun hc => ?_⟩
        rw [hc] at hdig
        exact absurd hdig (by decide)
    obtain ⟨c, cs, heq, hcne⟩ := hhead
    simp only [intChars, if_neg hneg, heq, List.cons_append]
    have hred : parseNum (c :: (cs ++ rest)) =
        (parseNumCore (c :: (cs ++ rest))).map (fun p => ((p.1 : Int), p.2)) := by
      simp only [parseNum]
      split
      · rename_i t ht
        injection ht with h1 h2
        exact absurd h1 hcne
      · rfl
    rw [hred, ← List.cons_append, ← heq, parseNumCore_natDigits hrest]
    simp [hval]

/-! ## String literals -/

/-- Characters the model allows raw inside a JSON string literal: printable
ASCII except the quote, the backslash (escape sequences are outside the
model) and the three characters Go's encoder escapes for HTML safety. -/
def safeChar (c : Char) : Bool :=
  decide (0x20 ≤ c.toNat) && decide (c.toNat ≤ 0x7e) &&
    !(c = '"' || c = '\\' || c = '<' || c = '>' || c = '&')

/-- Read string-literal characters up to the closing quote. -/
def strChars : List Char → Option (List Char × List Char)
  | [] => none
  | c :: t =>
    if c = '"' then some ([], t)
    else if safeChar c then (strChars t).map (fun p => (c :: p.1, p.2))
    else none

theorem strChars_eq {s rest : List Char} (hs : ∀ c ∈ s, safeChar c = true) :
    strChars (s ++ '"' :: rest) = some (s, rest) := by
  induction s with
  | nil => simp [strChars]
  | cons c t ih =>
    have hc : safeChar c = true := hs c (List.mem_cons_self ..)
    have hq : ¬ c = '"' := by
      intro h
      rw [h] at hc
      exact absurd hc (by decide)
    have ht : ∀ x ∈ t, safeChar x = true := fun x hm => hs x (List.mem_cons_of_mem _ hm)
    simp [strChars, hq, hc, ih ht]

/-! ## The JSON value tree

`encoding/json` decodes a response body into `map[string]interface{}`; the
model represents the decoded tree with `JValue`, and a decoded map with a
key-sorted association list `JObj` (the canonical form in which Go's
order-randomized maps are re-serialized, since `json.Marshal` sorts map
keys). -/

mutual

inductive JValue where
  | null : JValue
  | bool : Bool → JValue
  | num : Int → JValue
  | str : String → JValue
  | arr : JArr → JValue
  | obj : JObj → JValue
deriving DecidableEq

inductive JArr where
  | nil : JArr
  | cons : JValue → JArr → JArr
deriving DecidableEq

inductive JObj where
  | nil : JObj
  | cons : String → JValue → JObj → JObj
deriving DecidableEq

end

/-- Does the association list bind the key? -/
def hasKey (k : String) : JObj → Bool
  | .nil => false
  | .cons k' _ t => k = k' || hasKey k t

/-- Insert a binding, keeping keys sorted (Go byte order on our ASCII
fragment coincides with the character order used here). -/
def insertSorted (k : String) (v : JValue) : JObj → JObj
  | .nil => .cons k v .nil
  | .cons k' v' t =>
    if k < k' then .cons k v (.cons k' v' t) else .cons k' v' (insertSorted k v t)

/-- Record a binding read *before* the bindings already in `o`: with Go map
semantics a later duplicate key wins, so an earlier binding is dropped when
the key is already present. -/
def addEarlier (k : String) (v : JValue) (o : JObj) : JObj :=
  if hasKey k o then o else insertSorted k v o

/-! ## The model `json.MarshalIndent`

Mirrors `json.MarshalIndent(obj, "", "  ")` on the modelled fragment:
two-space indentation per nesting level, each element or member on its own
line, `{}`/`[]` for empty composites, keys already in Go's sorted map-key
order. -/

/-- Indentation of nesting depth `d`. -/
def indentChars (d : Nat) : List Char := List.replicate (2 * d) ' '

mutual

def printVal : Nat → JValue → List Char
  | _, .null => ['n', 'u', 'l', 'l']
  | _, .bool true => ['t', 'r', 'u', 'e']
  | _, .bool false => ['f', 'a', 'l', 's', 'e']
  | _, .num n => intChars n
  | _, .str s => '"' :: (s.data ++ ['"'])
  | _, .arr .nil => ['[', ']']
  | d, .arr (.cons v t) =>
    '[' :: '\n' :: (indentChars (d + 1) ++ (printVal (d + 1) v ++
      (printMoreItems (d + 1) t ++ ('\n' :: (indentChars d ++ [']'])))))
  | _, .obj .nil => ['{', '}']
  | d, .obj (.cons k v t) =>
    '{' :: '\n' :: (indentChars (d + 1) ++ (printMember (d + 1) k v ++
      (printMoreMembers (d + 1) t ++ ('\n' :: (indentChars d ++ ['}'])))))

def printMember : Nat → String → JValue → List Char
  | d, k, v => '"' :: (k.data ++ ('"' :: ':' :: ' ' :: printVal d v))

def printMoreItems : Nat → JArr → List Char
  | _, .nil => []
  | d, .cons v t =>
    ',' :: '\n' :: (indentChars d ++ (printVal d v ++ printMoreItems d t))

def printMoreMembers : Nat → JObj → List Char
  | _, .nil => []
  | d, .cons k v t =>
    ',' :: '\n' :: (indentChars d ++ (printMember d k v ++ printMoreMembers d t))

end

/-! ## The model `json.Unmarshal` into `map[string]interface{}`

A fuel-indexed recursive-descent parser for the modelled JSON fragment.  It
is conservative: every input it accepts is decoded by `encoding/json` into
the same tree, while inputs outside the fragment (floats, escapes, non-ASCII,
top-level non-objects such as `null`) are rejected even where Go would accept
them. -/

/-- Match an expected keyword continuation (the tail of `null`, `true`,
`false`), returning the remaining input on success. -/
def stripPrefixChars : List Char → List Char → Option (List Char)
  | [], l => some l
  | p :: ps, c :: t => if c = p then stripPrefixChars ps t else none
  | _ :: _, [] => none

mutual

def parseVal : Nat → List Char → Option (JValue × List Char)
  | 0, _ => none
  | _ + 1, [] => none
  | f + 1, c :: t =>
    if c = '{' then
      match skipWs t with
      | [] => none
      | c2 :: r =>
        if c2 = '}' then some (.obj .nil, r)
        else (parseMembers f (c2 :: r)).map (fun p => (JValue.obj p.1, p.2))
    else if c = '[' then
      match skipWs t with
      | [] => none
      | c2 :: r =>
        if c2 = ']' then some (.arr .nil, r)
        else (parseItems f (c2 :: r)).map (fun p => (JValue.arr p.1, p.2))
    else if c = '"' then
      (strChars t).map (fun p => (JValue.str (String.mk p.1), p.2))
    else if c = 'n' then
      match stripPrefixChars ['u', 'l', 'l'] t with
      | some r => some (.null, r)
      | none => none
    else if c = 't' then
      match stripPrefixChars ['r', 'u', 'e'] t with
      | some r => some (.bool true, r)
      | none => none
    else if c = 'f' then
      match stripPrefixChars ['a', 'l', 's', 'e'] t with
      | some r => some (.bool false, r)
      | none => none
    else (parseNum (c :: t)).map (fun p => (JValue.num p.1, p.2))
termination_by structural f => f

def parseMembers : Nat → List Char → Option (JObj × List Char)
  | 0, _ => none
  | _ + 1, [] => none
  | f + 1, c :: t =>
    if c = '"' then
      match strChars t with
      | none => none
      | some (k, r1) =>
        match skipWs r1 with
        | [] => none
        | c2 :: r2 =>
          if c2 = ':' then
            match parseVal f (skipWs r2) with
            | none => none
            | some (v, r3) =>
              match skipWs r3 with
              | [] => none
              | c3 :: r4 =>
                if c3 = ',' then
                  match parseMembers f (skipWs r4) with
                  | none => none
                  | some (o, r5) => some (addEarlier (String.mk k) v o, r5)
                else if c3 = '}' then some (JObj.cons (String.mk k) v JObj.nil, r4)
                else none
          else none
    else none
termination_by structural f => f

def parseItems : Nat → List Char → Option (JArr × List Char)
  | 0, _ => none
  | f + 1, l =>
    match parseVal f l with
    | none => none
    | some (v, r1) =>
      match skipWs r1 with
      | [] => none
      | c2 :: r2 =>
        if c2 = ',' then (parseItems f (skipWs r2)).map (fun p => (JArr.cons v p.1, p.2))
        else if c2 = ']' then some (.cons v .nil, r2)
        else none
termination_by structural f => f

end

/-- Model of `json.Unmarshal(body, &obj)` for `obj : map[string]interface{}`:
succeeds exactly when the whole input is one JSON object (with optional
surrounding whitespace) inside the modelled fragment. -/
def jsonUnmarshalMap (s : String) : Option JObj :=
  let l := skipWs s.data
  match parseVal (l.length + 1) l with
  | some (JValue.obj o, rest) => if skipWs rest = [] then some o else none
  | _ => none

/-- Model of `json.MarshalIndent(obj, "", "  ")` for a decoded map. -/
def marshalIndent (o : JObj) : String := String.mk (printVal 0 (JValue.obj o))

/-! ## Auxiliary lemmas for the codec round trip -/

theorem mk_data (s : String) : String.mk s.data = s := by
  cases s
  rfl

theorem skipWs_eq_self {l : List Char}
    (h : ∀ c cs, l = c :: cs → wsChar c = false) : skipWs l = l := by
  cases l with
  | nil => rfl
  | cons c t => exact skipWs_cons_not (h c t rfl) t

theorem indentChars_ws (k : Nat) : ∀ c ∈ indentChars k, wsChar c = true := by
  intro c hc
  rw [indentChars, List.mem_replicate] at hc
  rw [hc.2]
  decide

theorem skipWs_newline_indent (k : Nat) {x : List Char} (hx : skipWs x = x) :
    skipWs ('\n' :: (indentChars k ++ x)) = x := by
  rw [skipWs_cons_ws (by decide), skipWs_append_ws (indentChars_ws k), hx]

theorem natDigits_head_spec (n : Nat) :
    ∃ m cs, m < 10 ∧ natDigits n = digitChar m :: cs := by
  induction n using Nat.strong_induction_on with
  | _ n ih =>
    by_cases h : n < 10
    · exact ⟨n, [], h, natDigits_small h⟩
    · obtain ⟨m, cs, hm, heq⟩ := ih (n / 10) (Nat.div_lt_self (by omega) (by omega))
      exact ⟨m, cs ++ [digitChar (n % 10)], hm, by rw [natDigits_large h, heq]; rfl⟩

/-- Head-character facts about a printed integer, used to steer the parser's
branch selection. -/
theorem intChars_head_spec (n : Int) :
    ∃ c cs, intChars n = c :: cs ∧ c ≠ '{' ∧ c ≠ '[' ∧ c ≠ '"' ∧
      c ≠ 'n' ∧ c ≠ 't' ∧ c ≠ 'f' ∧ wsChar c = false ∧ c ≠ ']' ∧ c ≠ '}' := by
  by_cases hneg : n < 0
  · exact ⟨'-', natDigits n.natAbs, by simp [intChars, hneg], by decide, by decide,
      by decide, by decide, by decide, by decide, by decide, by decide, by decide⟩
  · obtain ⟨m, cs, hm, heq⟩ := natDigits_head_spec n.natAbs
    refine ⟨digitChar m, cs, by simp [intChars, hneg, heq], ?_, ?_, ?_, ?_, ?_, ?_, ?_, ?_, ?_⟩
      <;> interval_cases m <;> decide

/-- Head-character facts about any printed value: never empty, never starts
with whitespace or a closing bracket. -/
theorem printVal_head_spec (d : Nat) (v : JValue) :
    ∃ c cs, printVal d v = c :: cs ∧ wsChar c = false ∧ c ≠ ']' ∧ c ≠ '}' := by
  cases v with
  | null => exact ⟨'n', _, by rw [printVal], by decide, by decide, by decide⟩
  | bool b =>
    cases b with
    | true => exact ⟨'t', _, by rw [printVal], by decide, by decide, by decide⟩
    | false => exact ⟨'f', _, by rw [printVal], by decide, by decide, by decide⟩
  | num n =>
    obtain ⟨c, cs, heq, _, _, _, _, _, _, hws, hrb, hcb⟩ := intChars_head_spec n
    exact ⟨c, cs, by rw [printVal, heq], hws, hrb, hcb⟩
  | str s => exact ⟨'"', _, by rw [printVal], by decide, by decide, by decide⟩
  | arr xs =>
    cases xs with
    | nil => exact ⟨'[', _, by rw [printVal], by decide, by decide, by decide⟩
    | cons v t => exact ⟨'[', _, by rw [printVal], by decide, by decide, by decide⟩
  | obj o =>
    cases o with
    | nil => exact ⟨'{', _, by rw [printVal], by decide, by decide, by decide⟩
    | cons k v t => exact ⟨'{', _, by rw [printVal], by decide, by decide, by decide⟩

theorem strChars_safe : ∀ {l cs r : List Char}, strChars l = some (cs, r) →
    ∀ c ∈ cs, safeChar c = true := by
  intro l
  induction l with
  | nil => intro cs r h; simp [strChars] at h
  | cons c t ih =>
    intro cs r h
    by_cases hq : c = '"'
    · rw [strChars, if_pos hq] at h
      rcases (Option.some.injEq _ _).mp h with hpair
      rcases Prod.mk.injEq .. ▸ hpair with ⟨hcs, hr⟩
      subst hcs
      intro x hx
      simp at hx
    · by_cases hsafe : safeChar c
      · rw [strChars, if_neg hq, if_pos hsafe, Option.map_eq_some'] at h
        obtain ⟨⟨cs', r'⟩, hrec, hpair⟩ := h
        rcases Prod.mk.injEq .. ▸ hpair with ⟨hcs, hr⟩
        subst hcs
        intro x hx
        rcases List.mem_cons.mp hx with hx | hx
        · rw [hx]; exact hsafe
        · exact ih hrec x hx
      · rw [strChars, if_neg hq, if_neg hsafe] at h
        exact absurd h (by simp)

/-! ### Sorted-insertion lemmas (`String` keys compare as in Go's sorted
map-key output: byte order, which agrees with character order on the ASCII
fragment). -/

/-- Strict lower bound on the first key of an association list. -/
def keyLB (k : String) : JObj → Bool
  | .nil => true
  | .cons k' _ _ => decide (k < k')

/-! Well-formed values: strings drawn from the safe fragment and objects in
canonical (strictly key-sorted) form — the shape `json.Unmarshal` actually
produces for the modelled fragment. -/

mutual

def wfV : JValue → Bool
  | .null => true
  | .bool _ => true
  | .num _ => true
  | .str s => s.data.all safeChar
  | .arr xs => wfA xs
  | .obj o => wfO o

def wfA : JArr → Bool
  | .nil => true
  | .cons v t => wfV v && wfA t

def wfO : JObj → Bool
  | .nil => true
  | .cons k v t => k.data.all safeChar && keyLB k t && wfV v && wfO t

end

/-- The key chain of an association list is strictly increasing. -/
def sortedO : JObj → Bool
  | .nil => true
  | .cons k _ t => keyLB k t && sortedO t

theorem sortedO_of_wfO : ∀ {t : JObj}, wfO t = true → sortedO t = true
  | .nil, _ => rfl
  | .cons k v t, hwf => by
    simp only [wfO, Bool.and_eq_true] at hwf
    simp only [sortedO, Bool.and_eq_true]
    exact ⟨hwf.1.1.2, sortedO_of_wfO hwf.2⟩

theorem hasKey_eq_false_of_lt : ∀ {t : JObj} {k : String}, sortedO t = true →
    keyLB k t = true → hasKey k t = false
  | .nil, k, _, _ => rfl
  | .cons k' v' t', k, hwf, hlb => by
    simp only [keyLB, decide_eq_true_eq] at hlb
    simp only [sortedO, Bool.and_eq_true] at hwf
    have hlb' : keyLB k t' = true := by
      cases t' with
      | nil => rfl
      | cons k'' v'' t'' =>
        have h2 : k' < k'' := by
          have := hwf.1
          simpa [keyLB] using this
        simp only [keyLB, decide_eq_true_eq]
        exact lt_trans hlb h2
    simp only [hasKey, Bool.or_eq_false_iff]
    exact ⟨by simp [ne_of_lt hlb], hasKey_eq_false_of_lt hwf.2 hlb'⟩

/-- Adding a binding whose key lies strictly below every key of a sorted
list simply conses it at the front. -/
theorem addEarlier_front {k : String} {v : JValue} {t : JObj}
    (hwf : sortedO t = true) (hlb : keyLB k t = true) :
    addEarlier k v t = .cons k v t := by
  rw [addEarlier, hasKey_eq_false_of_lt hwf hlb]
  simp only [Bool.false_eq_true, if_false]
  cases t with
  | nil => rfl
  | cons k' v' t' =>
    have hk : k < k' := by simpa [keyLB] using hlb
    simp [insertSorted, hk]

theorem keyLB_insertSorted {j k : String} {v : JValue} {t : JObj}
    (hjk : j < k) (hlb : keyLB j t = true) :
    keyLB j (insertSorted k v t) = true := by
  cases t with
  | nil => simp [insertSorted, keyLB, hjk]
  | cons k' v' t' =>
    by_cases h : k < k'
    · simp [insertSorted, h, keyLB, hjk]
    · simp only [insertSorted, if_neg h]
      exact hlb

theorem wfO_insertSorted : ∀ {t : JObj} {k : String} {v : JValue},
    k.data.all safeChar = true → wfV v = true → wfO t = true →
    hasKey k t = false → wfO (insertSorted k v t) = true
  | .nil, k, v, hk, hv, _, _ => by
    simp [insertSorted, wfO, keyLB, hk, hv]
  | .cons k' v' t', k, v, hk, hv, hwf, hhk => by
    simp only [wfO, Bool.and_eq_true] at hwf
    simp only [hasKey, Bool.or_eq_false_iff, decide_eq_false_iff_not] at hhk
    by_cases h : k < k'
    · simp only [insertSorted, if_pos h, wfO, Bool.and_eq_true, keyLB]
      refine ⟨⟨⟨hk, by simp [h]⟩, hv⟩, ?_⟩
      exact hwf
    · have hk'k : k' < k := by
        rcases lt_trichotomy k k' with h1 | h1 | h1
        · exact absurd h1 h
        · exact absurd h1 hhk.1
        · exact h1
      simp only [insertSorted, if_neg h, wfO, Bool.and_eq_true]
      exact ⟨⟨⟨hwf.1.1.1, keyLB_insertSorted hk'k hwf.1.1.2⟩, hwf.1.2⟩,
        wfO_insertSorted hk hv hwf.2 hhk.2⟩

theorem wfO_addEarlier {k : String} {v : JValue} {t : JObj}
    (hk : k.data.all safeChar = true) (hv : wfV v = true) (ht : wfO t = true) :
    wfO (addEarlier k v t) = true := by
  rw [addEarlier]
  by_cases h : hasKey k t
  · simpa [h] using ht
  · simp only [h, Bool.false_eq_true, if_false]
    exact wfO_insertSorted hk hv ht (by simpa using h)

/-! ### Fuel accounting -/

mutual

def fuelV : JValue → Nat
  | .arr xs => fuelA xs + 1
  | .obj o => fuelO o + 1
  | _ => 1

def fuelA : JArr → Nat
  | .nil => 1
  | .cons v t => fuelV v + fuelA t + 1

def fuelO : JObj → Nat
  | .nil => 1
  | .cons _ v t => fuelV v + fuelO t + 1

end

theorem fuelV_pos (v : JValue) : 1 ≤ fuelV v := by
  cases v <;> simp [fuelV]

theorem fuelA_pos (t : JArr) : 1 ≤ fuelA t := by
  cases t <;> simp [fuelA]

theorem fuelO_pos (t : JObj) : 1 ≤ fuelO t := by
  cases t <;> simp [fuelO]

theorem goodNumTail_newline (x : List Char) : goodNumTail ('\n' :: x) = true := by
  simp [goodNumTail]

theorem goodNumTail_comma (x : List Char) : goodNumTail (',' :: x) = true := by
  simp [goodNumTail]

/-- `skipWs` fixes any printed value (printed values never start with
whitespace). -/
theorem skipWs_printVal (d : Nat) (v : JValue) (x : List Char) :
    skipWs (printVal d v ++ x) = printVal d v ++ x := by
  obtain ⟨c, cs, heq, hws, _, _⟩ := printVal_head_spec d v
  rw [heq]
  exact skipWs_cons_not hws _

theorem skipWs_nl (l : List Char) : skipWs ('\n' :: l) = skipWs l :=
  skipWs_cons_ws (by decide) l

theorem skipWs_sp (l : List Char) : skipWs (' ' :: l) = skipWs l :=
  skipWs_cons_ws (by decide) l

theorem skipWs_indent (k : Nat) (l : List Char) :
    skipWs (indentChars k ++ l) = skipWs l :=
  skipWs_append_ws (indentChars_ws k) l

/-! ## The printer/parser round trip

Structured after verified encoder/decoder pairs: each lemma states that the
parser, run on a printed fragment followed by arbitrary residual input,
returns exactly the printed tree and the residue. -/

mutual

theorem parseVal_print : ∀ (v : JValue) (f d : Nat) (rest : List Char),
    wfV v = true → fuelV v ≤ f → goodNumTail rest = true →
    parseVal f (printVal d v ++ rest) = some (v, rest)
  | .null, f, d, rest, _, hfuel, _ => by
    obtain ⟨f', rfl⟩ : ∃ f', f = f' + 1 :=
      ⟨f - 1, by simp [fuelV] at hfuel; omega⟩
    rw [printVal]
    simp [parseVal, stripPrefixChars]
  | .bool true, f, d, rest, _, hfuel, _ => by
    obtain ⟨f', rfl⟩ : ∃ f', f = f' + 1 :=
      ⟨f - 1, by simp [fuelV] at hfuel; omega⟩
    rw [printVal]
    simp [parseVal, stripPrefixChars]
  | .bool false, f, d, rest, _, hfuel, _ => by
    obtain ⟨f', rfl⟩ : ∃ f', f = f' + 1 :=
      ⟨f - 1, by simp [fuelV] at hfuel; omega⟩
    rw [printVal]
    simp [parseVal, stripPrefixChars]
  | .num n, f, d, rest, _, hfuel, hrest => by
    obtain ⟨f', rfl⟩ : ∃ f', f = f' + 1 :=
      ⟨f - 1, by simp [fuelV] at hfuel; omega⟩
    rw [printVal]
    obtain ⟨c, cs, heq, h1, h2, h3, h4, h5, h6, _, _, _⟩ := intChars_head_spec n
    have hnum : parseNum (c :: (cs ++ rest)) = some (n, rest) := by
      rw [← List.cons_append, ← heq]
      exact parseNum_intChars hrest
    rw [heq, List.cons_append]
    simp only [parseVal, h1, h2, h3, h4, h5, h6, if_false, hnum, Option.map_some']
  | .str s, f, d, rest, hwf, hfuel, _ => by
    obtain ⟨f', rfl⟩ : ∃ f', f = f' + 1 :=
      ⟨f - 1, by simp [fuelV] at hfuel; omega⟩
    rw [printVal]
    have hs : ∀ c ∈ s.data, safeChar c = true := by
      simp only [wfV, List.all_eq_true] at hwf
      exact hwf
    rw [List.cons_append, List.append_assoc, List.cons_append, List.nil_append]
    simp only [parseVal, reduceIte]
    rw [strChars_eq hs]
    simp [mk_data]
  | .arr .nil, f, d, rest, _, hfuel, _ => by
    obtain ⟨f', rfl⟩ : ∃ f', f = f' + 1 :=
      ⟨f - 1, by simp [fuelV] at hfuel; omega⟩
    rw [printVal]
    simp only [List.cons_append, List.nil_append, parseVal, reduceIte]
    rw [skipWs_cons_not (by decide) rest]
    simp
  | .arr (.cons v t), f, d, rest, hwf, hfuel, hrest => by
    obtain ⟨f', rfl⟩ : ∃ f', f = f' + 1 :=
      ⟨f - 1, by simp [fuelV, fuelA] at hfuel; omega⟩
    have hwf' : wfV v = true ∧ wfA t = true := by
      simp only [wfV, wfA, Bool.and_eq_true] at hwf
      exact hwf
    have hfa : fuelV v + fuelA t ≤ f' := by
      simp [fuelV, fuelA] at hfuel
      omega
    have hitem := parseItems_print v t f' (d + 1) d rest hwf'.1 hwf'.2 hfa
    obtain ⟨c0, cs0, hpv, hws0, hc0r, hc0b⟩ := printVal_head_spec (d + 1) v
    rw [hpv, List.cons_append] at hitem
    rw [printVal]
    simp only [List.cons_append, List.append_assoc, List.nil_append]
    simp only [parseVal, Char.reduceEq, reduceIte]
    rw [skipWs_newline_indent (d + 1) (skipWs_printVal (d + 1) v _), hpv,
      List.cons_append]
    simp only [hc0r, reduceIte]
    rw [hitem]
    rfl
  | .obj .nil, f, d, rest, _, hfuel, _ => by
    obtain ⟨f', rfl⟩ : ∃ f', f = f' + 1 :=
      ⟨f - 1, by simp [fuelV] at hfuel; omega⟩
    rw [printVal]
    simp only [List.cons_append, List.nil_append, parseVal, reduceIte]
    rw [skipWs_cons_not (by decide) rest]
    simp
  | .obj (.cons k v t), f, d, rest, hwf, hfuel, hrest => by
    obtain ⟨f', rfl⟩ : ∃ f', f = f' + 1 :=
      ⟨f - 1, by simp [fuelV, fuelO] at hfuel; omega⟩
    have hwf' : (k.data.all safeChar = true ∧ keyLB k t = true ∧ wfV v = true) ∧
        wfO t = true := by
      simp only [wfV, wfO, Bool.and_eq_true] at hwf
      tauto
    have hfo : fuelV v + fuelO t ≤ f' := by
      simp [fuelV, fuelO] at hfuel
      omega
    have hmem := parseMembers_print k v t f' (d + 1) d rest hwf'.1.1 hwf'.1.2.2
      hwf'.2 hwf'.1.2.1 hfo
    rw [printVal, printMember]
    simp only [List.cons_append, List.append_assoc, List.nil_append]
    simp only [parseVal, Char.reduceEq, reduceIte]
    rw [skipWs_newline_indent (d + 1) (skipWs_cons_not (by decide) _)]
    simp only [Char.reduceEq, reduceIte]
    rw [hmem]
    rfl
termination_by v => sizeOf v

theorem parseItems_print : ∀ (v : JValue) (t : JArr) (f d e : Nat) (rest : List Char),
    wfV v = true → wfA t = true → fuelV v + fuelA t ≤ f →
    parseItems f (printVal d v ++ (printMoreItems d t ++
      ('\n' :: (indentChars e ++ (']' :: rest))))) = some (JArr.cons v t, rest)
  | v, .nil, f, d, e, rest, hv, _, hfuel => by
    obtain ⟨f', rfl⟩ : ∃ f', f = f' + 1 :=
      ⟨f - 1, by simp [fuelA] at hfuel; omega⟩
    simp only [printMoreItems, List.nil_append]
    simp only [parseItems]
    rw [parseVal_print v f' d _ hv (by simp [fuelA] at hfuel; omega)
      (goodNumTail_newline _)]
    simp only [skipWs_nl, skipWs_indent,
      skipWs_cons_not (show wsChar ']' = false by decide),
      Char.reduceEq, reduceIte]
  | v, .cons v' t', f, d, e, rest, hv, hwt, hfuel => by
    obtain ⟨f', rfl⟩ : ∃ f', f = f' + 1 :=
      ⟨f - 1, by simp [fuelA] at hfuel; omega⟩
    have hwt' : wfV v' = true ∧ wfA t' = true := by
      simp only [wfA, Bool.and_eq_true] at hwt
      exact hwt
    simp only [printMoreItems, List.cons_append, List.append_assoc, List.nil_append]
    simp only [parseItems]
    rw [parseVal_print v f' d _ hv
      (by have := fuelV_pos v'; have := fuelA_pos t'; simp [fuelA] at hfuel; omega)
      (goodNumTail_comma _)]
    simp only [skipWs_cons_not (show wsChar ',' = false by decide),
      Char.reduceEq, reduceIte, skipWs_nl, skipWs_indent, skipWs_printVal]
    rw [parseItems_print v' t' f' d e rest hwt'.1 hwt'.2
      (by have := fuelV_pos v; simp [fuelA] at hfuel; omega)]
    rfl
termination_by v t => sizeOf v + sizeOf t

theorem parseMembers_print : ∀ (k : String) (v : JValue) (t : JObj)
    (f d e : Nat) (rest : List Char),
    k.data.all safeChar = true → wfV v = true → wfO t = true → keyLB k t = true →
    fuelV v + fuelO t ≤ f →
    parseMembers f ('"' :: (k.data ++ ('"' :: ':' :: ' ' :: (printVal d v ++
        (printMoreMembers d t ++ ('\n' :: (indentChars e ++ ('}' :: rest)))))))) =
      some (JObj.cons k v t, rest)
  | k, v, .nil, f, d, e, rest, hk, hv, _, _, hfuel => by
    obtain ⟨f', rfl⟩ : ∃ f', f = f' + 1 :=
      ⟨f - 1, by simp [fuelO] at hfuel; omega⟩
    have hks : ∀ c ∈ k.data, safeChar c = true := by
      simp only [List.all_eq_true] at hk
      exact hk
    simp only [printMoreMembers, List.nil_append]
    simp only [parseMembers, Char.reduceEq, reduceIte]
    rw [strChars_eq hks]
    simp only [skipWs_cons_not (show wsChar ':' = false by decide),
      Char.reduceEq, reduceIte, skipWs_sp, skipWs_printVal]
    rw [parseVal_print v f' d _ hv (by simp [fuelO] at hfuel; omega)
      (goodNumTail_newline _)]
    simp only [skipWs_nl, skipWs_indent,
      skipWs_cons_not (show wsChar '}' = false by decide),
      Char.reduceEq, reduceIte, mk_data]
  | k, v, .cons k' v' t', f, d, e, rest, hk, hv, hwt, hlb, hfuel => by
    obtain ⟨f', rfl⟩ : ∃ f', f = f' + 1 :=
      ⟨f - 1, by simp [fuelO] at hfuel; omega⟩
    have hks : ∀ c ∈ k.data, safeChar c = true := by
      simp only [List.all_eq_true] at hk
      exact hk
    have hwt' : (k'.data.all safeChar = true ∧ keyLB k' t' = true ∧ wfV v' = true) ∧
        wfO t' = true := by
      simp only [wfO, Bool.and_eq_true] at hwt
      tauto
    have hrec := parseMembers_print k' v' t' f' d e rest hwt'.1.1 hwt'.1.2.2
      hwt'.2 hwt'.1.2.1
      (by have := fuelV_pos v; simp [fuelO] at hfuel; omega)
    simp only [printMoreMembers, printMember, List.cons_append, List.append_assoc,
      List.nil_append]
    simp only [parseMembers, Char.reduceEq, reduceIte]
    rw [strChars_eq hks]
    simp only [skipWs_cons_not (show wsChar ':' = false by decide),
      Char.reduceEq, reduceIte, skipWs_sp, skipWs_printVal]
    rw [parseVal_print v f' d _ hv
      (by have := fuelV_pos v'; have := fuelO_pos t'; simp [fuelO] at hfuel; omega)
      (goodNumTail_comma _)]
    simp only [skipWs_cons_not (show wsChar ',' = false by decide),
      skipWs_cons_not (show wsChar '"' = false by decide),
      Char.reduceEq, reduceIte, skipWs_nl, skipWs_indent]
    rw [hrec]
    have hfront := addEarlier_front (k := k) (v := v) (sortedO_of_wfO hwt) hlb
    simp [mk_data, hfront]
termination_by k v t => sizeOf v + sizeOf t

end

/-! ### The parser only produces well-formed trees -/

mutual

theorem parseVal_wf : ∀ (f : Nat) (l : List Char) (v : JValue) (r : List Char),
    parseVal f l = some (v, r) → wfV v = true
  | 0, l, v, r, h => by simp [parseVal] at h
  | f + 1, [], v, r, h => by simp [parseVal] at h
  | f + 1, c :: t, v, r, h => by
    simp only [parseVal] at h
    split_ifs at h with h1 h2 h3 h4 h5 h6
    · split at h
      · exact absurd h (by simp)
      · rename_i c2 r2 heq
        split_ifs at h with hb
        · rcases (Option.some.injEq _ _).mp h with hp
          obtain ⟨hv, hr⟩ := Prod.mk.injEq .. ▸ hp
          subst hv
          rfl
        · rw [Option.map_eq_some'] at h
          obtain ⟨⟨o, r'⟩, hp, hpair⟩ := h
          obtain ⟨hv, hr⟩ := Prod.mk.injEq .. ▸ hpair
          subst hv
          simpa [wfV] using parseMembers_wf f _ o r' hp
    · split at h
      · exact absurd h (by simp)
      · rename_i c2 r2 heq
        split_ifs at h with hb
        · rcases (Option.some.injEq _ _).mp h with hp
          obtain ⟨hv, hr⟩ := Prod.mk.injEq .. ▸ hp
          subst hv
          rfl
        · rw [Option.map_eq_some'] at h
          obtain ⟨⟨a, r'⟩, hp, hpair⟩ := h
          obtain ⟨hv, hr⟩ := Prod.mk.injEq .. ▸ hpair
          subst hv
          simpa [wfV] using parseItems_wf f _ a r' hp
    · rw [Option.map_eq_some'] at h
      obtain ⟨⟨cs, r'⟩, hp, hpair⟩ := h
      obtain ⟨hv, hr⟩ := Prod.mk.injEq .. ▸ hpair
      subst hv
      simp only [wfV, List.all_eq_true]
      exact strChars_safe hp
    · split at h
      · rcases (Option.some.injEq _ _).mp h with hp
        obtain ⟨hv, hr⟩ := Prod.mk.injEq .. ▸ hp
        subst hv
        rfl
      · exact absurd h (by simp)
    · split at h
      · rcases (Option.some.injEq _ _).mp h with hp
        obtain ⟨hv, hr⟩ := Prod.mk.injEq .. ▸ hp
        subst hv
        rfl
      · exact absurd h (by simp)
    · split at h
      · rcases (Option.some.injEq _ _).mp h with hp
        obtain ⟨hv, hr⟩ := Prod.mk.injEq .. ▸ hp
        subst hv
        rfl
      · exact absurd h (by simp)
    · rw [Option.map_eq_some'] at h
      obtain ⟨⟨n, r'⟩, hp, hpair⟩ := h
      obtain ⟨hv, hr⟩ := Prod.mk.injEq .. ▸ hpair
      subst hv
      rfl

theorem parseMembers_wf : ∀ (f : Nat) (l : List Char) (o : JObj) (r : List Char),
    parseMembers f l = some (o, r) → wfO o = true
  | 0, l, o, r, h => by simp [parseMembers] at h
  | f + 1, [], o, r, h => by simp [parseMembers] at h
  | f + 1, c :: t, o, r, h => by
    simp only [parseMembers] at h
    split_ifs at h with h1
    · split at h
      · exact absurd h (by simp)
      · rename_i k r1 heqs
        have hksafe : (String.mk k).data.all safeChar = true := by
          simp only [List.all_eq_true]
          exact strChars_safe heqs
        split at h
        · exact absurd h (by simp)
        · rename_i c2 r2 heq2
          split_ifs at h with h2
          · split at h
            · exact absurd h (by simp)
            · rename_i v r3 heqv
              have hvwf := parseVal_wf f _ v r3 heqv
              split at h
              · exact absurd h (by simp)
              · rename_i c3 r4 heq3
                split_ifs at h with h3 h4
                · split at h
                  · exact absurd h (by simp)
                  · rename_i o' r5 heqo
                    have howf := parseMembers_wf f _ o' r5 heqo
                    rcases (Option.some.injEq _ _).mp h with hp
                    obtain ⟨hv, hr⟩ := Prod.mk.injEq .. ▸ hp
                    subst hv
                    exact wfO_addEarlier hksafe hvwf howf
                · rcases (Option.some.injEq _ _).mp h with hp
                  obtain ⟨hv, hr⟩ := Prod.mk.injEq .. ▸ hp
                  subst hv
                  simp [wfO, keyLB, hksafe, hvwf]

theorem parseItems_wf : ∀ (f : Nat) (l : List Char) (a : JArr) (r : List Char),
    parseItems f l = some (a, r) → wfA a = true
  | 0, l, a, r, h => by simp [parseItems] at h
  | f + 1, l, a, r, h => by
    simp only [parseItems] at h
    split at h
    · exact absurd h (by simp)
    · rename_i v r1 heqv
      have hvwf := parseVal_wf f _ v r1 heqv
      split at h
      · exact absurd h (by simp)
      · rename_i c2 r2 heq2
        split_ifs at h with h2 h3
        · rw [Option.map_eq_some'] at h
          obtain ⟨⟨a', r'⟩, hp, hpair⟩ := h
          have hawf := parseItems_wf f _ a' r' hp
          obtain ⟨hv, hr⟩ := Prod.mk.injEq .. ▸ hpair
          subst hv
          simp [wfA, hvwf, hawf]
        · rcases (Option.some.injEq _ _).mp h with hp
          obtain ⟨hv, hr⟩ := Prod.mk.injEq .. ▸ hp
          subst hv
          simp [wfA, hvwf]

end

/-! ### Fuel bounds: the printed text is at least as long as the fuel the
parser needs, so the top-level fuel `length + 1` always suffices. -/

theorem one_le_intChars_length (n : Int) : 1 ≤ (intChars n).length := by
  rw [intChars]
  split
  · simp
  · exact List.length_pos.mpr (natDigits_ne_nil _)

mutual

theorem fuelV_le_printVal : ∀ (v : JValue) (d : Nat),
    fuelV v ≤ (printVal d v).length
  | .null, d => by rw [printVal]; simp [fuelV]
  | .bool true, d => by rw [printVal]; simp [fuelV]
  | .bool false, d => by rw [printVal]; simp [fuelV]
  | .num n, d => by
    rw [printVal]
    have := one_le_intChars_length n
    simp [fuelV]
    omega
  | .str s, d => by rw [printVal]; simp [fuelV]
  | .arr .nil, d => by rw [printVal]; simp [fuelV, fuelA]
  | .arr (.cons v t), d => by
    have h1 := fuelV_le_printVal v (d + 1)
    have h2 := fuelA_le_printMoreItems t (d + 1)
    rw [printVal]
    simp only [fuelV, fuelA, List.length_cons, List.length_append,
      indentChars, List.length_replicate]
    omega
  | .obj .nil, d => by rw [printVal]; simp [fuelV, fuelO]
  | .obj (.cons k v t), d => by
    have h1 := fuelV_le_printVal v (d + 1)
    have h2 := fuelO_le_printMoreMembers t (d + 1)
    rw [printVal, printMember]
    simp only [fuelV, fuelO, List.length_cons, List.length_append,
      indentChars, List.length_replicate]
    omega

theorem fuelA_le_printMoreItems : ∀ (t : JArr) (d : Nat),
    fuelA t ≤ (printMoreItems d t).length + 2
  | .nil, d => by rw [printMoreItems]; simp [fuelA]
  | .cons v t, d => by
    have h1 := fuelV_le_printVal v d
    have h2 := fuelA_le_printMoreItems t d
    rw [printMoreItems]
    simp only [fuelA, List.length_cons, List.length_append,
      indentChars, List.length_replicate]
    omega

theorem fuelO_le_printMoreMembers : ∀ (t : JObj) (d : Nat),
    fuelO t ≤ (printMoreMembers d t).length + 2
  | .nil, d => by rw [printMoreMembers]; simp [fuelO]
  | .cons k v t, d => by
    have h1 := fuelV_le_printVal v d
    have h2 := fuelO_le_printMoreMembers t d
    rw [printMoreMembers, printMember]
    simp only [fuelO, List.length_cons, List.length_append,
      indentChars, List.length_replicate]
    omega

end

/-! ### The top-level round trip -/

/-- Any map decoded by the model `json.Unmarshal` is well formed. -/
theorem jsonUnmarshalMap_wf {s : String} {o : JObj}
    (h : jsonUnmarshalMap s = some o) : wfO o = true := by
  rw [jsonUnmarshalMap] at h
  split at h
  · rename_i v rest o' heq
    split_ifs at h
    rcases (Option.some.injEq _ _).mp h with hp
    subst hp
    simpa [wfV] using parseVal_wf _ _ _ _ heq
  · exact absurd h (by simp)

/-- The canonical re-serialization of a decoded map decodes back to the
same map: `json.Unmarshal ∘ json.MarshalIndent` is the identity on decoded
maps. -/
theorem jsonUnmarshalMap_marshalIndent {s : String} {o : JObj}
    (h : jsonUnmarshalMap s = some o) :
    jsonUnmarshalMap (marshalIndent o) = some o := by
  have hwf : wfO o = true := jsonUnmarshalMap_wf h
  have hskip : skipWs (printVal 0 (JValue.obj o)) = printVal 0 (JValue.obj o) := by
    have := skipWs_printVal 0 (JValue.obj o) []
    simpa using this
  have hparse : parseVal ((printVal 0 (JValue.obj o)).length + 1)
      (printVal 0 (JValue.obj o)) = some (JValue.obj o, []) := by
    have := parseVal_print (JValue.obj o) ((printVal 0 (JValue.obj o)).length + 1)
      0 [] (by simpa [wfV] using hwf)
      (le_trans (fuelV_le_printVal (JValue.obj o) 0) (by omega)) (by decide)
    simpa using this
  rw [jsonUnmarshalMap, marshalIndent]
  simp only [hskip]
  rw [hparse]
  simp [skipWs_nil]

/-! ## The model `gopkg.in/yaml.v2`

The invoker's YAML sniffing step is `yaml.Unmarshal(body, &obj)` into the
same `map[string]interface{}`, and on success `yaml.Marshal(obj)` produces
the `includes` snippet.  The model covers the flat block-mapping fragment
(`key: value` lines with plain scalar values) plus the two cases that drive
the empty-body behaviour: the empty document (zero YAML documents, so
`Unmarshal` succeeds and leaves the destination map untouched) and the empty
flow mapping `{}`.  It is conservative: everything it accepts is decoded by
`yaml.v2` to the same map, while resolution-sensitive tokens (`yes`, `on`,
octal-looking numerals, …) are rejected rather than modelled. -/

/-- Plain lowercase ASCII letters, the model's scalar alphabet. -/
def yAlphaChar (c : Char) : Bool := 'a' ≤ c && c ≤ 'z'

/-- Words whose YAML 1.1 resolution is not a plain string (booleans and
null); the model only decodes `true`/`false` and rejects the rest. -/
def yReserved (s : String) : Bool :=
  s = "true" || s = "false" || s = "yes" || s = "no" || s = "y" || s = "n" ||
    s = "on" || s = "off" || s = "null"

/-- Decode a plain scalar token as `yaml.v2` resolves it into `interface{}`
on the modelled fragment. -/
def yParseScalar (cs : List Char) : Option JValue :=
  if cs.isEmpty then none
  else if cs.all (fun c => c.isDigit) then
    if 2 ≤ cs.length && cs.head? = some '0' then none
    else some (.num (digitsVal cs))
  else if cs.all yAlphaChar then
    let s := String.mk cs
    if s = "true" then some (.bool true)
    else if s = "false" then some (.bool false)
    else if yReserved s then none
    else some (.str s)
  else none

/-- Decode one `key: value` line. -/
def yParseLine (l : List Char) : Option (String × JValue) :=
  let key := l.takeWhile yAlphaChar
  let rest := l.dropWhile yAlphaChar
  if key.isEmpty then none
  else if yReserved (String.mk key) then none
  else
    match rest with
    | c1 :: c2 :: val =>
      if c1 = ':' && c2 = ' ' then
        (yParseScalar val).map (fun v => (String.mk key, v))
      else none
    | _ => none

/-- Split the input into newline-terminated lines (every line must end with
`'\n'`; the accumulator carries the current line reversed). -/
def splitNL : List Char → List Char → Option (List (List Char))
  | [], acc => if acc.isEmpty then some [] else none
  | c :: t, acc =>
    if c = '\n' then (splitNL t []).map (fun ls => acc.reverse :: ls)
    else splitNL t (c :: acc)

/-- Fold decoded lines into a map, later duplicate keys winning as in a Go
map populated in document order. -/
def yLinesToObj : List (List Char) → Option JObj
  | [] => some .nil
  | l :: ls =>
    match yParseLine l with
    | none => none
    | some (k, v) =>
      match yLinesToObj ls with
      | none => none
      | some o => some (addEarlier k v o)

/-- Model of `yaml.Unmarshal(body, &obj)` for `obj : map[string]interface{}`
(already empty and non-nil when the call is reached): the empty document
parses to zero YAML documents and leaves the map untouched, `{}` is the
empty flow mapping, and otherwise the body must be a flat block mapping. -/
def yamlUnmarshalMap (s : String) : Option JObj :=
  if s = "" then some JObj.nil
  else if s = "{}" || s = "{}\n" then some JObj.nil
  else
    match splitNL s.data [] with
    | none => none
    | some ls => yLinesToObj ls

/-- Render one plain scalar as `yaml.v2` emits it. -/
def yScalarChars : JValue → List Char
  | .num n => intChars n
  | .bool true => ['t', 'r', 'u', 'e']
  | .bool false => ['f', 'a', 'l', 's', 'e']
  | .str s => s.data
  | .null => ['n', 'u', 'l', 'l']
  | .arr _ => []
  | .obj _ => []

def yamlMarshalLines : JObj → List Char
  | .nil => []
  | .cons k v t =>
    k.data ++ (':' :: ' ' :: (yScalarChars v ++ ('\n' :: yamlMarshalLines t)))

/-- Model of `yaml.Marshal(obj)`: the empty map renders as `{}\n`, other
maps as sorted `key: value` lines (`yaml.v2` sorts map keys). -/
def yamlMarshal (o : JObj) : String :=
  match o with
  | .nil => "{}\n"
  | .cons k v t => String.mk (yamlMarshalLines (.cons k v t))

/-! ### YAML well-formedness and round trip -/

/-- Keys of the modelled YAML fragment: nonempty plain lowercase words that
resolve to strings. -/
def yKeyWf (k : String) : Bool :=
  !k.data.isEmpty && k.data.all yAlphaChar && !yReserved k

def yScalarWf : JValue → Bool
  | .num n => decide (0 ≤ n)
  | .bool _ => true
  | .str s => !s.data.isEmpty && s.data.all yAlphaChar && !yReserved s
  | _ => false

def yWfO : JObj → Bool
  | .nil => true
  | .cons k v t => yKeyWf k && yScalarWf v && keyLB k t && yWfO t

theorem sortedO_of_yWfO : ∀ {t : JObj}, yWfO t = true → sortedO t = true
  | .nil, _ => rfl
  | .cons k v t, hwf => by
    simp only [yWfO, Bool.and_eq_true] at hwf
    simp only [sortedO, Bool.and_eq_true]
    exact ⟨hwf.1.2, sortedO_of_yWfO hwf.2⟩

theorem isDigit_eq_false_of_yAlpha {c : Char} (h : yAlphaChar c = true) :
    c.isDigit = false := by
  simp only [yAlphaChar, Bool.and_eq_true, decide_eq_true_eq] at h
  by_contra hd
  simp only [Bool.not_eq_false, Char.isDigit, Bool.and_eq_true,
    decide_eq_true_eq] at hd
  have h1n : (97 : Nat) ≤ c.val.toNat := h.1
  have hd2n : c.val.toNat ≤ (57 : Nat) := hd.2
  omega

theorem ne_nl_of_yAlpha {c : Char} (h : yAlphaChar c = true) : c ≠ '\n' := by
  simp only [yAlphaChar, Bool.and_eq_true, decide_eq_true_eq] at h
  intro hc
  rw [hc] at h
  exact absurd h.1 (by decide)

theorem ne_nl_of_digit {c : Char} (h : c.isDigit = true) : c ≠ '\n' := by
  simp only [Char.isDigit, Bool.and_eq_true, decide_eq_true_eq] at h
  intro hc
  rw [hc] at h
  exact absurd h.1 (by decide)

theorem yScalarChars_no_nl {v : JValue} (hwf : yScalarWf v = true) :
    ∀ c ∈ yScalarChars v, c ≠ '\n' := by
  cases v with
  | num n =>
    intro c hc
    rw [yScalarChars] at hc
    rw [intChars] at hc
    split at hc
    · rcases List.mem_cons.mp hc with hc | hc
      · rw [hc]; decide
      · exact ne_nl_of_digit (natDigits_all_digit _ c hc)
    · exact ne_nl_of_digit (natDigits_all_digit _ c hc)
  | bool b =>
    cases b <;>
      · intro c hc
        rw [yScalarChars] at hc
        simp only [List.mem_cons, List.not_mem_nil, or_false] at hc
        rcases hc with hc | hc | hc | hc <;> first
          | (rw [hc]; decide)
          | (rcases hc with hc | hc <;> (rw [hc]; decide))
  | str s =>
    intro c hc
    rw [yScalarChars] at hc
    simp only [yScalarWf, Bool.and_eq_true, List.all_eq_true] at hwf
    exact ne_nl_of_yAlpha (hwf.1.2 c hc)
  | null => intro c hc; exact absurd hwf (by simp [yScalarWf])
  | arr xs => intro c hc; exact absurd hwf (by simp [yScalarWf])
  | obj o => intro c hc; exact absurd hwf (by simp [yScalarWf])

theorem splitNL_line : ∀ {line : List Char}, (∀ c ∈ line, c ≠ '\n') →
    ∀ (rest acc : List Char),
    splitNL (line ++ '\n' :: rest) acc =
      (splitNL rest []).map (fun ls => (acc.reverse ++ line) :: ls) := by
  intro line
  induction line with
  | nil =>
    intro _ rest acc
    simp [splitNL]
  | cons c line' ih =>
    intro h rest acc
    have hc : c ≠ '\n' := h c (List.mem_cons_self ..)
    have h' : ∀ x ∈ line', x ≠ '\n' := fun x hx => h x (List.mem_cons_of_mem _ hx)
    rw [List.cons_append, splitNL, if_neg hc, ih h' rest (c :: acc)]
    simp

theorem takeWhile_append_stop (p : Char → Bool) :
    ∀ (xs : List Char) (y : Char) (r : List Char), (∀ c ∈ xs, p c = true) →
    p y = false →
    (xs ++ y :: r).takeWhile p = xs ∧ (xs ++ y :: r).dropWhile p = y :: r
  | [], y, r, _, hy => by
    simp [List.takeWhile, List.dropWhile, hy]
  | c :: t, y, r, hxs, hy => by
    have hc : p c = true := hxs c (List.mem_cons_self ..)
    have ht : ∀ x ∈ t, p x = true := fun x hx => hxs x (List.mem_cons_of_mem _ hx)
    obtain ⟨h1, h2⟩ := takeWhile_append_stop p t y r ht hy
    simp [List.takeWhile, List.dropWhile, hc, h1, h2]

theorem yParseScalar_yScalarChars {v : JValue} (hwf : yScalarWf v = true) :
    yParseScalar (yScalarChars v) = some v := by
  cases v with
  | num n =>
    have hn : ¬ n < 0 := by
      simp only [yScalarWf, decide_eq_true_eq] at hwf
      omega
    by_cases h0 : n = 0
    · subst h0
      have hzero : yScalarChars (.num 0) = ['0'] := by
        rw [yScalarChars, intChars, if_neg (by omega), Int.natAbs_zero, natDigits_zero]
      rw [hzero]
      decide
    · have habs : n.natAbs ≠ 0 := by omega
      obtain ⟨c, cs, heq, hne⟩ := natDigits_head_ne_zero habs
      have hchars : yScalarChars (.num n) = natDigits n.natAbs := by
        rw [yScalarChars, intChars, if_neg hn]
      have hdig' : ∀ x ∈ c :: cs, x.isDigit = true := heq ▸ natDigits_all_digit n.natAbs
      have hval' : digitsVal (c :: cs) = n.natAbs := heq ▸ digitsVal_natDigits n.natAbs
      rw [hchars, heq]
      simp only [yParseScalar, List.isEmpty_cons, Bool.false_eq_true, if_false,
        List.all_eq_true, hval']
      rw [if_pos hdig']
      rw [if_neg (by simp [hne])]
      have : ((n.natAbs : Int)) = n := by omega
      rw [this]
  | bool b => cases b <;> decide
  | str s =>
    have hwf' : ((!s.data.isEmpty && s.data.all yAlphaChar) && !yReserved s)
        = true := hwf
    simp only [Bool.and_eq_true, Bool.not_eq_true'] at hwf'
    have h1 : s.data.isEmpty = false := hwf'.1.1
    have h2 : s.data.all yAlphaChar = true := hwf'.1.2
    have h3 : yReserved s = false := hwf'.2
    obtain ⟨c0, cs0, hdata⟩ : ∃ c0 cs0, s.data = c0 :: cs0 := by
      cases hd : s.data with
      | nil => rw [hd] at h1; exact absurd h1 (by simp)
      | cons a b => exact ⟨a, b, rfl⟩
    have hc0 : yAlphaChar c0 = true := by
      rw [List.all_eq_true] at h2
      exact h2 c0 (hdata ▸ List.mem_cons_self ..)
    have hnotdig : s.data.all (fun c => c.isDigit) = false := by
      rw [hdata, List.all_cons, isDigit_eq_false_of_yAlpha hc0, Bool.false_and]
    have ha : ¬ s = "true" := by
      intro he
      rw [he] at h3
      exact absurd h3 (by decide)
    have hb : ¬ s = "false" := by
      intro he
      rw [he] at h3
      exact absurd h3 (by decide)
    have hne : s.data ≠ [] := by
      rw [hdata]
      simp
    have hdig' : ¬ ∀ x ∈ s.data, x.isDigit = true := by
      rw [← List.all_eq_true, hnotdig]
      simp
    have h2' : ∀ x ∈ s.data, yAlphaChar x = true := List.all_eq_true.mp h2
    simp [yParseScalar, yScalarChars, mk_data, h1, hne, hdig', h2', h3, ha, hb]
    exact h2'
  | null => exact absurd hwf (by simp [yScalarWf])
  | arr xs => exact absurd hwf (by simp [yScalarWf])
  | obj o => exact absurd hwf (by simp [yScalarWf])

theorem yKeyLB_insertSorted {j k : String} {v : JValue} {t : JObj}
    (hjk : j < k) (hlb : keyLB j t = true) :
    keyLB j (insertSorted k v t) = true := keyLB_insertSorted hjk hlb

theorem yWfO_insertSorted : ∀ {t : JObj} {k : String} {v : JValue},
    yKeyWf k = true → yScalarWf v = true → yWfO t = true →
    hasKey k t = false → yWfO (insertSorted k v t) = true
  | .nil, k, v, hk, hv, _, _ => by
    simp [insertSorted, yWfO, keyLB, hk, hv]
  | .cons k' v' t', k, v, hk, hv, hwf, hhk => by
    simp only [yWfO, Bool.and_eq_true] at hwf
    simp only [hasKey, Bool.or_eq_false_iff, decide_eq_false_iff_not] at hhk
    by_cases h : k < k'
    · simp only [insertSorted, if_pos h, yWfO, Bool.and_eq_true, keyLB]
      refine ⟨⟨⟨hk, hv⟩, by simp [h]⟩, ?_⟩
      exact hwf
    · have hk'k : k' < k := by
        rcases lt_trichotomy k k' with h1 | h1 | h1
        · exact absurd h1 h
        · exact absurd h1 hhk.1
        · exact h1
      simp only [insertSorted, if_neg h, yWfO, Bool.and_eq_true]
      exact ⟨⟨⟨hwf.1.1.1, hwf.1.1.2⟩, keyLB_insertSorted hk'k hwf.1.2⟩,
        yWfO_insertSorted hk hv hwf.2 hhk.2⟩

theorem yWfO_addEarlier {k : String} {v : JValue} {t : JObj}
    (hk : yKeyWf k = true) (hv : yScalarWf v = true) (ht : yWfO t = true) :
    yWfO (addEarlier k v t) = true := by
  rw [addEarlier]
  by_cases h : hasKey k t
  · simpa [h] using ht
  · simp only [h, Bool.false_eq_true, if_false]
    exact yWfO_insertSorted hk hv ht (by simpa using h)

theorem yParseScalar_wf {cs : List Char} {v : JValue}
    (h : yParseScalar cs = some v) : yScalarWf v = true := by
  simp only [yParseScalar] at h
  split_ifs at h with h1 h2 h3 h4 h5 h6 h7
  · rcases (Option.some.injEq _ _).mp h with hp
    rw [← hp]
    simp [yScalarWf]
  · rcases (Option.some.injEq _ _).mp h with hp
    rw [← hp]
    rfl
  · rcases (Option.some.injEq _ _).mp h with hp
    rw [← hp]
    rfl
  · rcases (Option.some.injEq _ _).mp h with hp
    rw [← hp]
    simp only [yScalarWf, Bool.and_eq_true, Bool.not_eq_true']
    exact ⟨⟨by simpa using h1, by simpa using h4⟩, by simpa using h7⟩

theorem yParseLine_wf {l : List Char} {k : String} {v : JValue}
    (h : yParseLine l = some (k, v)) :
    yKeyWf k = true ∧ yScalarWf v = true := by
  rw [yParseLine] at h
  split_ifs at h with h1 h2
  split at h
  · rename_i c1 c2 val
    split_ifs at h with h3
    · rw [Option.map_eq_some'] at h
      obtain ⟨v', hps, hpair⟩ := h
      obtain ⟨hkk, hvv⟩ := Prod.mk.injEq .. ▸ hpair
      subst hkk
      subst hvv
      refine ⟨?_, yParseScalar_wf hps⟩
      simp only [yKeyWf, Bool.and_eq_true, Bool.not_eq_true']
      refine ⟨⟨by simpa using h1, ?_⟩, by simpa using h2⟩
      rw [List.all_eq_true]
      intro x hx
      exact List.mem_takeWhile_imp hx
  · exact absurd h (by simp)

theorem yLinesToObj_wf : ∀ {ls : List (List Char)} {o : JObj},
    yLinesToObj ls = some o → yWfO o = true
  | [], o, h => by
    rcases (Option.some.injEq _ _).mp h with hp
    rw [← hp]
    rfl
  | l :: ls, o, h => by
    rw [yLinesToObj] at h
    split at h
    · exact absurd h (by simp)
    · rename_i k v hline
      split at h
      · exact absurd h (by simp)
      · rename_i o' hrec
        rcases (Option.some.injEq _ _).mp h with hp
        rw [← hp]
        obtain ⟨hk, hv⟩ := yParseLine_wf hline
        exact yWfO_addEarlier hk hv (yLinesToObj_wf hrec)

/-- Any map decoded by the model `yaml.Unmarshal` is well formed (in the
YAML fragment sense). -/
theorem yamlUnmarshalMap_wf {s : String} {o : JObj}
    (h : yamlUnmarshalMap s = some o) : yWfO o = true := by
  rw [yamlUnmarshalMap] at h
  split_ifs at h with h1 h2
  · rcases (Option.some.injEq _ _).mp h with hp
    rw [← hp]
    rfl
  · rcases (Option.some.injEq _ _).mp h with hp
    rw [← hp]
    rfl
  · split at h
    · exact absurd h (by simp)
    · rename_i ls hls
      exact yLinesToObj_wf h

/-- One printed mapping line parses back to its binding. -/
theorem yParseLine_print {k : String} {v : JValue}
    (hk : yKeyWf k = true) (hv : yScalarWf v = true) :
    yParseLine (k.data ++ (':' :: ' ' :: yScalarChars v)) = some (k, v) := by
  have hk' : ((!k.data.isEmpty && k.data.all yAlphaChar) && !yReserved k)
      = true := hk
  simp only [Bool.and_eq_true, Bool.not_eq_true'] at hk'
  have halpha : ∀ c ∈ k.data, yAlphaChar c = true := List.all_eq_true.mp hk'.1.2
  obtain ⟨htake, hdrop⟩ := takeWhile_append_stop yAlphaChar k.data ':'
    (' ' :: yScalarChars v) halpha (by decide)
  rw [yParseLine]
  simp only [htake, hdrop]
  rw [if_neg (by simp [hk'.1.1])]
  rw [if_neg (by rw [mk_data]; simp [hk'.2])]
  simp only [Char.reduceEq, reduceIte, Bool.and_self, if_true]
  rw [yParseScalar_yScalarChars hv]
  simp [mk_data]

/-- The mapping lines a well-formed map marshals to. -/
def yLines : JObj → List (List Char)
  | .nil => []
  | .cons k v t => (k.data ++ (':' :: ' ' :: yScalarChars v)) :: yLines t

theorem splitNL_yamlMarshalLines : ∀ {o : JObj}, yWfO o = true →
    splitNL (yamlMarshalLines o) [] = some (yLines o)
  | .nil, _ => rfl
  | .cons k v t, hwf => by
    simp only [yWfO, Bool.and_eq_true] at hwf
    have hkwf : ((!k.data.isEmpty && k.data.all yAlphaChar) && !yReserved k)
        = true := hwf.1.1.1
    simp only [Bool.and_eq_true, Bool.not_eq_true'] at hkwf
    have hnl : ∀ c ∈ k.data ++ (':' :: ' ' :: yScalarChars v), c ≠ '\n' := by
      intro c hc
      rcases List.mem_append.mp hc with hc | hc
      · exact ne_nl_of_yAlpha (List.all_eq_true.mp hkwf.1.2 c hc)
      · rcases List.mem_cons.mp hc with hc | hc
        · rw [hc]; decide
        · rcases List.mem_cons.mp hc with hc | hc
          · rw [hc]; decide
          · exact yScalarChars_no_nl hwf.1.1.2 c hc
    have hshape : yamlMarshalLines (.cons k v t) =
        (k.data ++ (':' :: ' ' :: yScalarChars v)) ++
          ('\n' :: yamlMarshalLines t) := by
      rw [yamlMarshalLines]
      simp [List.append_assoc]
    rw [hshape, splitNL_line hnl (yamlMarshalLines t) []]
    rw [splitNL_yamlMarshalLines hwf.2]
    simp [yLines]

theorem yLinesToObj_yLines : ∀ {o : JObj}, yWfO o = true →
    yLinesToObj (yLines o) = some o
  | .nil, _ => rfl
  | .cons k v t, hwf => by
    simp only [yWfO, Bool.and_eq_true] at hwf
    rw [yLines, yLinesToObj,
      yParseLine_print hwf.1.1.1 hwf.1.1.2,
      yLinesToObj_yLines hwf.2]
    have hfront := addEarlier_front (k := k) (v := v)
      (sortedO_of_yWfO (show yWfO t = true from hwf.2))
      (show keyLB k t = true from hwf.1.2)
    show some (addEarlier k v t) = some (JObj.cons k v t)
    rw [hfront]

/-- The first character of a marshalled nonempty mapping is a lowercase
letter, so the rendered text is never `""`, `"{}"` or `"{}\n"`. -/
theorem yamlMarshal_roundTrip : ∀ {o : JObj}, yWfO o = true →
    yamlUnmarshalMap (yamlMarshal o) = some o
  | .nil, _ => by decide
  | .cons k v t, hwf => by
    have hwf' := hwf
    simp only [yWfO, Bool.and_eq_true] at hwf'
    have hkwf : ((!k.data.isEmpty && k.data.all yAlphaChar) && !yReserved k)
        = true := hwf'.1.1.1
    simp only [Bool.and_eq_true, Bool.not_eq_true'] at hkwf
    obtain ⟨c0, ks0, hkdata⟩ : ∃ c0 ks0, k.data = c0 :: ks0 := by
      cases hd : k.data with
      | nil => rw [hd] at hkwf; exact absurd hkwf.1.1 (by simp)
      | cons a b => exact ⟨a, b, rfl⟩
    have hc0 : yAlphaChar c0 = true :=
      List.all_eq_true.mp hkwf.1.2 c0 (hkdata ▸ List.mem_cons_self ..)
    have hdata : (yamlMarshal (.cons k v t)).data =
        c0 :: (ks0 ++ (':' :: ' ' :: (yScalarChars v ++
          ('\n' :: yamlMarshalLines t)))) := by
      rw [yamlMarshal]
      show yamlMarshalLines (.cons k v t) = _
      rw [yamlMarshalLines, hkdata]
      rfl
    have hc0a : ('a' : Char) ≤ c0 ∧ c0 ≤ 'z' := by
      simpa [yAlphaChar, Bool.and_eq_true, decide_eq_true_eq] using hc0
    have hne1 : ¬ yamlMarshal (.cons k v t) = "" := by
      intro he
      have := congrArg String.data he
      rw [hdata] at this
      simp at this
    have hne2 : ¬ yamlMarshal (.cons k v t) = "{}" := by
      intro he
      have hd := congrArg String.data he
      rw [hdata, show ("{}" : String).data = ['{', '}'] from rfl] at hd
      have hc : c0 = '{' := (List.cons.injEq .. ▸ hd).1
      rw [hc] at hc0a
      exact absurd hc0a.2 (by decide)
    have hne3 : ¬ yamlMarshal (.cons k v t) = "{}\n" := by
      intro he
      have hd := congrArg String.data he
      rw [hdata, show ("{}\n" : String).data = ['{', '}', '\n'] from rfl] at hd
      have hc : c0 = '{' := (List.cons.injEq .. ▸ hd).1
      rw [hc] at hc0a
      exact absurd hc0a.2 (by decide)
    rw [yamlUnmarshalMap, if_neg hne1, if_neg (by simp [hne2, hne3])]
    have hdd : (yamlMarshal (.cons k v t)).data = yamlMarshalLines (.cons k v t) :=
      rfl
    rw [hdd, splitNL_yamlMarshalLines hwf]
    exact yLinesToObj_yLines hwf

/-- The canonical YAML re-serialization of a decoded mapping decodes back to
the same mapping. -/
theorem yamlUnmarshalMap_yamlMarshal {s : String} {m : JObj}
    (h : yamlUnmarshalMap s = some m) :
    yamlUnmarshalMap (yamlMarshal m) = some m :=
  yamlMarshal_roundTrip (yamlUnmarshalMap_wf h)

/-! ## The HTTP invoker embedding

Shallow embedding of `lib/engine/HttpInvoker.go`.  Go byte slices and
strings are embedded as `String`; the Go `int` status code as `Int`; nilable
pointers as `Option`.  A Go `http.Header` (`map[string][]string`) is
embedded as an association list: equal maps are lists that are permutations
of each other with no duplicate names, and the list order additionally
stands for the (randomized) iteration order a particular `range` over the
map happens to produce. -/

structure HttpHeader where
  Name : String
  Value : String
deriving DecidableEq

structure HttpRequest where
  Method : String
  Url : String
  PDP : String
  Path : String
  Headers : List HttpHeader
  Body : String
deriving DecidableEq

structure HttpResponse where
  Status : String
  StatusCode : Int
  Version : String
  Header : List (String × List String)
  ContentLength : Int
  Body : String
deriving DecidableEq

/-- Modelled from the spec: the assertion-block types (`MeasureStatusCode`,
`MeasureHeader`, `MeasureHeaders`, `MeasureBody`, `Expectation`, `TestCase`)
are defined outside the provided sources; their fields are fixed by their
uses in `generateTestCase`/`generateExpectation` and by the generated
document shape (`is-equal-to`, `has-total`, `has-format`, `includes`,
`match-with`). -/
structure MeasureStatusCode where
  IsEqualTo : Option Int
deriving DecidableEq

structure MeasureHeader where
  Name : Option String
  IsEqualTo : Option String
deriving DecidableEq

structure MeasureHeaders where
  HasTotal : Option Nat
  Items : List MeasureHeader
deriving DecidableEq

structure MeasureBody where
  HasFormat : Option String
  Includes : Option String
  IsEqualTo : Option String
  MatchWith : Option String
deriving DecidableEq

structure Expectation where
  StatusCode : Option MeasureStatusCode
  Headers : Option MeasureHeaders
  Body : Option MeasureBody
deriving DecidableEq

structure TestCase where
  Title : String
  Version : String
  Request : Option HttpRequest
  Expectation : Option Expectation
deriving DecidableEq

/-- `GeneratedSnapshot` (HttpInvoker.go lines 331-333). -/
structure GeneratedSnapshot where
  TestCases : List TestCase
deriving DecidableEq

/-- The body-classification chain of `generateExpectation` (lines 253-287),
parameterized over the codec operations actually called (`json.Unmarshal`,
`json.MarshalIndent`, `yaml.Unmarshal`, `yaml.Marshal`), so that statements
about which codec is consulted can quantify over them.  The Go fallback for
a failing re-marshal is omitted: re-marshalling a value just produced by the
corresponding unmarshal cannot fail. -/
def classifyBodyWith (ju : String → Option JObj) (jm : JObj → String)
    (yu : String → Option JObj) (ym : JObj → String) (body : String) :
    MeasureBody :=
  match ju body with
  | some obj =>
    { HasFormat := some "json", Includes := some (jm obj),
      IsEqualTo := none, MatchWith := none }
  | none =>
    match yu body with
    | some obj =>
      { HasFormat := some "yaml", Includes := some (ym obj),
        IsEqualTo := none, MatchWith := none }
    | none =>
      { HasFormat := some "flat", Includes := none,
        IsEqualTo := some body, MatchWith := some ".*" }

/-- The body classification with the modelled Go codecs plugged in. -/
def classifyBody (body : String) : MeasureBody :=
  classifyBodyWith jsonUnmarshalMap marshalIndent yamlUnmarshalMap yamlMarshal
    body

/-- The per-header itemization step of `generateExpectation` (lines
240-250): a (name, values) association is itemized exactly when it carries a
single value. -/
def headerItem (kv : String × List String) : Option MeasureHeader :=
  match kv.2 with
  | [v] => some { Name := some kv.1, IsEqualTo := some v }
  | _ => none

/-- `TestGenerator.generateExpectation` (lines 221-290).  The `Header` list
is walked in its list order, standing for the map iteration order. -/
def generateExpectation (res : Option HttpResponse) : Option Expectation :=
  match res with
  | none => none
  | some res =>
    let total := res.Header.length
    some {
      StatusCode := some { IsEqualTo := some res.StatusCode },
      Headers :=
        if total > 0 then
          some { HasTotal := some total,
                 Items := res.Header.filterMap headerItem }
        else none,
      Body := some (classifyBody res.Body) }

structure TestGenerator where
  Version : String
deriving DecidableEq

/-- The `TestCase` built by `generateTestCase` (lines 202-206). -/
def generatedTestCaseOf (g : TestGenerator) (req : Option HttpRequest)
    (res : Option HttpResponse) : TestCase :=
  { Title := "<Generated testcase>", Version := g.Version,
    Request := req, Expectation := generateExpectation res }

/-- The `GeneratedSnapshot` built by `generateTestCase` (lines 208-209). -/
def generatedSnapshotOf (g : TestGenerator) (req : Option HttpRequest)
    (res : Option HttpResponse) : GeneratedSnapshot :=
  { TestCases := [generatedTestCaseOf g req res] }

/-- `TestGenerator.generateTestCase` (lines 201-219): returns the lines
written to the target sink together with the returned error.
`yaml.Marshal` of the snapshot is an external call, modelled by the
`marshal` parameter.  On failure the Go code passes a `%s` format string to
`Fprintln`, which prints it verbatim followed by the space-separated error
value. -/
def generateTestCase (marshal : GeneratedSnapshot → Except String String)
    (g : TestGenerator) (req : Option HttpRequest) (res : Option HttpResponse) :
    List String × Option String :=
  match marshal (generatedSnapshotOf g req res) with
  | .error e => (["Cannot marshal generated testcase, error: %s " ++ e], some e)
  | .ok script => (["", script], none)

/-- Modelled from the spec: `utils.UrlJoin` is not among the provided
sources; per the spec it joins a base URL and a path "using a join that
normalizes exactly one separating slash regardless of trailing/leading
slashes on either side" (its error result is discarded by the caller). -/
def UrlJoin (base path : String) : String :=
  String.mk ((base.data.reverse.dropWhile (fun c => c = '/')).reverse) ++ "/" ++
    String.mk (path.data.dropWhile (fun c => c = '/'))

/-- `DEFAULT_PDP` (line 292). -/
def DEFAULT_PDP : String := "http://localhost:17779"

structure HttpInvokerOptions where
  PDP : String
  Version : String
deriving DecidableEq

structure HttpInvoker where
  pdp : String
  generator : TestGenerator
deriving DecidableEq

/-- `NewHttpInvoker` (lines 26-37), for non-nil options (the Go code
dereferences `opts.Version` unconditionally, so a nil-options invoker is
outside the modelled behaviour). -/
def NewHttpInvoker (opts : HttpInvokerOptions) : HttpInvoker :=
  let pdp := if opts.PDP.length = 0 then DEFAULT_PDP else opts.PDP
  { pdp := pdp, generator := { Version := opts.Version } }

/-- The URL computation of `Do` (lines 44-55). -/
def resolveUrl (cpdp : String) (req : HttpRequest) : String :=
  if req.Url.length = 0 then
    let pdp := if req.PDP.length > 0 then req.PDP else cpdp
    let basePath := if req.Path.length > 0 then req.Path else "/$"
    UrlJoin pdp basePath
  else req.Url

/-- The transport-level request assembled by `Do` (lines 62-82). -/
structure LowRequest where
  Method : String
  Url : String
  Headers : List HttpHeader
  Body : Option String
deriving DecidableEq

/-- An interceptor, described by its dynamically-checked capabilities: a
present `ExplanationWriter` capability with its (possibly nil) console-out
sink, and a present `SnapshotGenerator` capability with its (possibly nil)
target sink.  Sinks are named by numbers. -/
structure Interceptor where
  explanationOut : Option (Option Nat)
  snapshotOut : Option (Option Nat)
deriving DecidableEq

/-- Observable effects of one `Do` invocation, in order. -/
inductive DoEvent where
  | renderedRequest (sink : Nat)
  | networkCall (lowReq : LowRequest)
  | renderedResponse (sink : Nat)
  | generatedTestCase (sink : Nat) (lines : List String) (err : Option String)
deriving DecidableEq

/-- The pre-call dispatch loop of `Do` (lines 84-92). -/
def preDispatch (is : List Interceptor) : List DoEvent :=
  is.filterMap (fun i =>
    match i.explanationOut with
    | some (some k) => some (.renderedRequest k)
    | _ => none)

/-- The post-call dispatch loop of `Do` (lines 115-129): for each
interceptor, in order, render the response when the explanation capability
has a sink, then generate a snapshot when the snapshot capability has a
sink — discarding `generateTestCase`'s error. -/
def postDispatch (marshal : GeneratedSnapshot → Except String String)
    (g : TestGenerator) (req : HttpRequest) (res : HttpResponse)
    (is : List Interceptor) : List DoEvent :=
  (is.map (fun i =>
    (match i.explanationOut with
     | some (some k) => [DoEvent.renderedResponse k]
     | _ => []) ++
    (match i.snapshotOut with
     | some (some k) =>
       let p := generateTestCase marshal g (some req) (some res)
       [DoEvent.generatedTestCase k p.1 p.2]
     | _ => []))).flatten

/-- `HttpInvoker.Do` (lines 39-132).  External effects are parameters:
`newRequestErr` models `http.NewRequest` failure on a method/URL pair,
`transport` models the network call (returning the captured response with
the body already drained), `marshal` models `yaml.Marshal` of a snapshot.
The result pairs Go's return value with the ordered trace of observable
effects. -/
def Do (c : HttpInvoker)
    (newRequestErr : String → String → Option String)
    (transport : LowRequest → Except String HttpResponse)
    (marshal : GeneratedSnapshot → Except String String)
    (req : Option HttpRequest) (interceptors : List Interceptor) :
    Except String HttpResponse × List DoEvent :=
  match req with
  | none => (.error "Request must not be nil", [])
  | some req =>
    let url := resolveUrl c.pdp req
    let method := if req.Method.length > 0 then req.Method else "GET"
    let body := if req.Body.length > 0 then some req.Body else none
    match newRequestErr method url with
    | some e => (.error e, [])
    | none =>
      let lowReq : LowRequest :=
        { Method := method, Url := url,
          Headers := req.Headers.filter
            (fun h => h.Name.length > 0 && h.Value.length > 0),
          Body := body }
      let pre := preDispatch interceptors
      match transport lowReq with
      | .error e => (.error e, pre ++ [.networkCall lowReq])
      | .ok res =>
        (.ok res, pre ++ ([.networkCall lowReq] ++
          postDispatch marshal c.generator req res interceptors))

/-! ## Concrete captures used to instantiate the claims -/

/-- The spec's empty-body scenario: a 404 response with no headers and an
empty body. -/
def emptyBodyResponse : HttpResponse :=
  { Status := "404 Not Found", StatusCode := 404, Version := "HTTP/1.1",
    Header := [], ContentLength := 0, Body := "" }

/-- A response whose body is in no structured format. -/
def flatBodyResponse : HttpResponse :=
  { Status := "200 OK", StatusCode := 200, Version := "HTTP/1.1",
    Header := [], ContentLength := 12, Body := "hello world!" }

/-- The spec's JSON scenario: a 200 response with body `{"a":1}`. -/
def jsonScenarioResponse : HttpResponse :=
  { Status := "200 OK", StatusCode := 200, Version := "HTTP/1.1",
    Header := [("Content-Type", ["application/json"])], ContentLength := 7,
    Body := "\x7b\"a\":1\x7d" }

/-- A response with a YAML block-mapping body. -/
def yamlScenarioResponse : HttpResponse :=
  { Status := "200 OK", StatusCode := 200, Version := "HTTP/1.1",
    Header := [], ContentLength := 5, Body := "a: 1\n" }

/-! ## The claims -/

/-- C1 counterexample: on the empty body the synthesized body assertion is
NOT the flat assertion the claim requires — the empty body unmarshals as
YAML (`yaml.Unmarshal` of an empty document succeeds and leaves the empty
map untouched), so the format tag is `yaml` with snippet `{}\n`. -/
theorem C1_empty_body_is_yaml_not_flat :
    (generateExpectation (some emptyBodyResponse)).map Expectation.Body =
      some (some { HasFormat := some "yaml", Includes := some "{}\n",
                   IsEqualTo := none, MatchWith := none }) ∧
    ¬ ((generateExpectation (some emptyBodyResponse)).map Expectation.Body =
      some (some { HasFormat := some "flat", Includes := none,
                   IsEqualTo := some "", MatchWith := some ".*" })) := by
  constructor
  · decide
  · decide

/-- C1 (amended): for every response body on which both the JSON unmarshal
step and the YAML unmarshal step fail, the synthesized body assertion has
format tag `flat`, its exact-equality value is the raw body text, its match
pattern is `.*`, and no `includes` snippet is set.  (The empty body is not
such a body: its YAML unmarshal succeeds with the empty mapping, so it
classifies as `yaml`.) -/
theorem C1_flat_body (res : HttpResponse)
    (hj : jsonUnmarshalMap res.Body = none)
    (hy : yamlUnmarshalMap res.Body = none) :
    (generateExpectation (some res)).map Expectation.Body =
      some (some { HasFormat := some "flat", Includes := none,
                   IsEqualTo := some res.Body, MatchWith := some ".*" }) := by
  simp only [generateExpectation, Option.map_some', classifyBody,
    classifyBodyWith, hj, hy]

/-- C1 witness: the body `hello world!` is decoded by neither codec, and its
assertion is flat with the raw text and the `.*` pattern. -/
theorem C1_flat_body_witness :
    jsonUnmarshalMap flatBodyResponse.Body = none ∧
    yamlUnmarshalMap flatBodyResponse.Body = none ∧
    (generateExpectation (some flatBodyResponse)).map Expectation.Body =
      some (some { HasFormat := some "flat", Includes := none,
                   IsEqualTo := some flatBodyResponse.Body,
                   MatchWith := some ".*" }) :=
  ⟨by decide, by decide, C1_flat_body flatBodyResponse (by decide) (by decide)⟩

/-- C3: a body decoded as a JSON object synthesizes a `json`-tagged body
assertion whose `includes` snippet is the two-space-indented re-serialization
of the decoded object; that snippet re-decodes to the same object; and the
YAML codec is never consulted (the classification is the same whatever the
YAML codec does). -/
theorem C3_json_body (res : HttpResponse) (o : JObj)
    (hj : jsonUnmarshalMap res.Body = some o) :
    (generateExpectation (some res)).map Expectation.Body =
      some (some { HasFormat := some "json", Includes := some (marshalIndent o),
                   IsEqualTo := none, MatchWith := none }) ∧
    jsonUnmarshalMap (marshalIndent o) = some o ∧
    (∀ yu ym, classifyBodyWith jsonUnmarshalMap marshalIndent yu ym res.Body =
      classifyBody res.Body) := by
  refine ⟨?_, jsonUnmarshalMap_marshalIndent hj, ?_⟩
  · simp only [generateExpectation, Option.map_some', classifyBody,
      classifyBodyWith, hj]
  · intro yu ym
    simp only [classifyBody, classifyBodyWith, hj]

/-- C3 witness: the spec's `{"a":1}` scenario. -/
theorem C3_json_body_witness :
    jsonUnmarshalMap jsonScenarioResponse.Body =
      some (JObj.cons "a" (JValue.num 1) JObj.nil) ∧
    ((generateExpectation (some jsonScenarioResponse)).map Expectation.Body =
      some (some { HasFormat := some "json",
                   Includes :=
                     some (marshalIndent (JObj.cons "a" (JValue.num 1) JObj.nil)),
                   IsEqualTo := none, MatchWith := none }) ∧
    jsonUnmarshalMap (marshalIndent (JObj.cons "a" (JValue.num 1) JObj.nil)) =
      some (JObj.cons "a" (JValue.num 1) JObj.nil) ∧
    (∀ yu ym, classifyBodyWith jsonUnmarshalMap marshalIndent yu ym
        jsonScenarioResponse.Body = classifyBody jsonScenarioResponse.Body)) :=
  ⟨by decide, C3_json_body jsonScenarioResponse _ (by decide)⟩

/-- C4: a body not decoded as JSON but decoded as a YAML mapping synthesizes
a `yaml`-tagged body assertion whose `includes` snippet is the canonical
YAML re-serialization of the decoded mapping, and that snippet re-decodes to
the same mapping. -/
theorem C4_yaml_body (res : HttpResponse) (m : JObj)
    (hj : jsonUnmarshalMap res.Body = none)
    (hy : yamlUnmarshalMap res.Body = some m) :
    (generateExpectation (some res)).map Expectation.Body =
      some (some { HasFormat := some "yaml", Includes := some (yamlMarshal m),
                   IsEqualTo := none, MatchWith := none }) ∧
    yamlUnmarshalMap (yamlMarshal m) = some m := by
  refine ⟨?_, yamlUnmarshalMap_yamlMarshal hy⟩
  simp only [generateExpectation, Option.map_some', classifyBody,
    classifyBodyWith, hj, hy]

/-- C4 witness: the body `a: 1` (one mapping line). -/
theorem C4_yaml_body_witness :
    jsonUnmarshalMap yamlScenarioResponse.Body = none ∧
    yamlUnmarshalMap yamlScenarioResponse.Body =
      some (JObj.cons "a" (JValue.num 1) JObj.nil) ∧
    ((generateExpectation (some yamlScenarioResponse)).map Expectation.Body =
      some (some { HasFormat := some "yaml",
                   Includes :=
                     some (yamlMarshal (JObj.cons "a" (JValue.num 1) JObj.nil)),
                   IsEqualTo := none, MatchWith := none }) ∧
    yamlUnmarshalMap (yamlMarshal (JObj.cons "a" (JValue.num 1) JObj.nil)) =
      some (JObj.cons "a" (JValue.num 1) JObj.nil)) :=
  ⟨by decide, by decide, C4_yaml_body yamlScenarioResponse _ (by decide) (by decide)⟩

/-- C7: the synthesized expectation always carries a status-code assertion
whose exact-equality value is the response's numeric status code. -/
theorem C7_status_code (res : HttpResponse) :
    (generateExpectation (some res)).map Expectation.StatusCode =
      some (some { IsEqualTo := some res.StatusCode }) := by
  simp [generateExpectation]

/-! ## Header-map helpers -/

/-- In an association list with no duplicate names (a Go map), a name
determines its value list. -/
theorem nodup_fst_eq : ∀ {l : List (String × List String)} {k : String}
    {b c : List String}, (l.map Prod.fst).Nodup →
    (k, b) ∈ l → (k, c) ∈ l → b = c
  | [], _, _, _, _, hb, _ => absurd hb (List.not_mem_nil _)
  | x :: xs, k, b, c, hnd, hb, hc => by
    simp only [List.map_cons, List.nodup_cons] at hnd
    rcases List.mem_cons.1 hb with hb1 | hb2 <;>
      rcases List.mem_cons.1 hc with hc1 | hc2
    · have h := hb1.trans hc1.symm
      exact (Prod.mk.injEq k b k c ▸ h).2
    · exfalso
      exact hnd.1 (hb1 ▸ List.mem_map.2 ⟨(k, c), hc2, rfl⟩)
    · exfalso
      exact hnd.1 (hc1 ▸ List.mem_map.2 ⟨(k, b), hb2, rfl⟩)
    · exact nodup_fst_eq hnd.2 hb2 hc2

/-- A response with two header names, of which one is multi-valued. -/
def headersResponse : HttpResponse :=
  { Status := "200 OK", StatusCode := 200, Version := "HTTP/1.1",
    Header := [("A", ["1"]), ("B", ["x", "y"])], ContentLength := 1,
    Body := "x" }

/-- C2: with at least one header name, the headers assertion is present,
`HasTotal` counts the distinct names (one per map association), and a name
is itemized — as the exact (name, value) pair — precisely when it carries
exactly one value; names with two or more values reach the total but never
the itemized list.  With no header names, no headers assertion is
produced. -/
theorem C2_headers (res : HttpResponse)
    (hnd : (res.Header.map Prod.fst).Nodup) :
    (res.Header = [] →
      (generateExpectation (some res)).map Expectation.Headers = some none) ∧
    (res.Header ≠ [] →
      ∃ hs, (generateExpectation (some res)).map Expectation.Headers =
          some (some hs) ∧
        hs.HasTotal = some (res.Header.map Prod.fst).dedup.length ∧
        (∀ k vs, (k, vs) ∈ res.Header →
          ((∃ mh, mh ∈ hs.Items ∧ mh.Name = some k) ↔ ∃ v, vs = [v]) ∧
          (∀ v, vs = [v] →
            ({ Name := some k, IsEqualTo := some v } : MeasureHeader)
              ∈ hs.Items) ∧
          (2 ≤ vs.length → ∀ mh ∈ hs.Items, mh.Name ≠ some k))) := by
  constructor
  · intro h
    simp [generateExpectation, h]
  · intro h
    have hpos : 0 < res.Header.length := List.length_pos.2 h
    refine ⟨{ HasTotal := some res.Header.length,
              Items := res.Header.filterMap headerItem }, ?_, ?_, ?_⟩
    · simp [generateExpectation, hpos]
    · rw [hnd.dedup, List.length_map]
    · intro k vs hmem
      have fwd : ∀ mh, mh ∈ res.Header.filterMap headerItem →
          mh.Name = some k → ∃ v, vs = [v] := by
        intro mh hmh hname
        obtain ⟨kv, hkv, hf⟩ := List.mem_filterMap.1 hmh
        obtain ⟨k1, vs1⟩ := kv
        unfold headerItem at hf
        split at hf
        · rename_i v hv
          cases hf
          simp only [Option.some.injEq] at hname
          simp only at hv
          rw [hname, hv] at hkv
          exact ⟨v, (nodup_fst_eq hnd hkv hmem).symm⟩
        · exact absurd hf (by simp)
      refine ⟨⟨?_, ?_⟩, ?_, ?_⟩
      · rintro ⟨mh, hmh, hname⟩
        exact fwd mh hmh hname
      · rintro ⟨v, rfl⟩
        exact ⟨{ Name := some k, IsEqualTo := some v },
          List.mem_filterMap.2 ⟨(k, [v]), hmem, rfl⟩, rfl⟩
      · intro v hv
        subst hv
        exact List.mem_filterMap.2 ⟨(k, [v]), hmem, rfl⟩
      · intro h2 mh hmh hname
        obtain ⟨v, hv⟩ := fwd mh hmh hname
        rw [hv] at h2
        simp at h2

/-- C2 witness: two names, `A` single-valued, `B` double-valued. -/
theorem C2_headers_witness :
    ((headersResponse.Header.map Prod.fst).Nodup) ∧
    ((headersResponse.Header = [] →
      (generateExpectation (some headersResponse)).map Expectation.Headers =
        some none) ∧
    (headersResponse.Header ≠ [] →
      ∃ hs, (generateExpectation (some headersResponse)).map
            Expectation.Headers = some (some hs) ∧
        hs.HasTotal = some (headersResponse.Header.map Prod.fst).dedup.length ∧
        (∀ k vs, (k, vs) ∈ headersResponse.Header →
          ((∃ mh, mh ∈ hs.Items ∧ mh.Name = some k) ↔ ∃ v, vs = [v]) ∧
          (∀ v, vs = [v] →
            ({ Name := some k, IsEqualTo := some v } : MeasureHeader)
              ∈ hs.Items) ∧
          (2 ≤ vs.length → ∀ mh ∈ hs.Items, mh.Name ≠ some k)))) :=
  ⟨by decide, C2_headers headersResponse (by decide)⟩

/-- C6: the snapshot wraps exactly one test case, with the fixed generated
marker as title and the invoker's configured version; a marshalling failure
is reported as a diagnostic line on the sink and returned as the error,
while a marshalling success returns no error. -/
theorem C6_snapshot_serializer (opts : HttpInvokerOptions)
    (marshal : GeneratedSnapshot → Except String String)
    (req : Option HttpRequest) (res : Option HttpResponse) :
    (generatedSnapshotOf (NewHttpInvoker opts).generator req res).TestCases =
      [{ Title := "<Generated testcase>", Version := opts.Version,
         Request := req, Expectation := generateExpectation res }] ∧
    (∀ e, marshal (generatedSnapshotOf (NewHttpInvoker opts).generator req res)
        = .error e →
      generateTestCase marshal (NewHttpInvoker opts).generator req res =
        (["Cannot marshal generated testcase, error: %s " ++ e], some e)) ∧
    (∀ s, marshal (generatedSnapshotOf (NewHttpInvoker opts).generator req res)
        = .ok s →
      (generateTestCase marshal (NewHttpInvoker opts).generator req res).2 =
        none) := by
  refine ⟨rfl, ?_, ?_⟩
  · intro e he
    simp only [generateTestCase, he]
  · intro s hs
    simp only [generateTestCase, hs]

/-- C9: a nil request descriptor makes `Do` fail immediately: the stated
error is returned and the effect trace is empty — no network call and no
interceptor dispatch at either dispatch point. -/
theorem C9_nil_request (c : HttpInvoker)
    (nre : String → String → Option String)
    (tr : LowRequest → Except String HttpResponse)
    (marshal : GeneratedSnapshot → Except String String)
    (is : List Interceptor) :
    Do c nre tr marshal none is = (.error "Request must not be nil", []) :=
  rfl

/-! ## `Do` trace helpers -/

theorem length_eq_zero_iff (s : String) : s.length = 0 ↔ s = "" := by
  cases s with
  | mk data =>
    constructor
    · intro h
      have hd : data = [] := List.length_eq_zero.1 h
      rw [hd]
    · intro h
      rw [h]
      rfl

theorem length_pos_iff (s : String) : 0 < s.length ↔ s ≠ "" := by
  rw [Nat.pos_iff_ne_zero, ne_eq, length_eq_zero_iff, ne_eq]

/-- `resolveUrl`, restated with emptiness tests instead of length tests. -/
theorem resolveUrl_eq (cpdp : String) (req : HttpRequest) :
    resolveUrl cpdp req =
      (if req.Url = "" then
         UrlJoin (if req.PDP = "" then cpdp else req.PDP)
                 (if req.Path = "" then "/$" else req.Path)
       else req.Url) := by
  simp only [resolveUrl]
  by_cases hu : req.Url = ""
  · rw [if_pos ((length_eq_zero_iff req.Url).2 hu), if_pos hu]
    congr 1
    · by_cases hp : req.PDP = ""
      · rw [if_neg (by rw [hp]; decide), if_pos hp]
      · rw [if_pos ((length_pos_iff req.PDP).2 hp), if_neg hp]
    · by_cases hh : req.Path = ""
      · rw [if_neg (by rw [hh]; decide), if_pos hh]
      · rw [if_pos ((length_pos_iff req.Path).2 hh), if_neg hh]
  · rw [if_neg (fun hlen => hu ((length_eq_zero_iff req.Url).1 hlen)), if_neg hu]

/-- The pre-call dispatch only renders requests. -/
theorem preDispatch_shape {ev : DoEvent} {is : List Interceptor}
    (h : ev ∈ preDispatch is) : ∃ k, ev = DoEvent.renderedRequest k := by
  simp only [preDispatch, List.mem_filterMap] at h
  obtain ⟨i, _, hi⟩ := h
  split at hi
  · exact ⟨_, (Option.some_inj.1 hi).symm⟩
  · exact absurd hi (by simp)

/-- The post-call dispatch only renders responses and generates test
cases. -/
theorem postDispatch_shape {ev : DoEvent}
    {marshal : GeneratedSnapshot → Except String String} {g : TestGenerator}
    {req : HttpRequest} {res : HttpResponse} {is : List Interceptor}
    (h : ev ∈ postDispatch marshal g req res is) :
    (∃ k, ev = DoEvent.renderedResponse k) ∨
    (∃ k l er, ev = DoEvent.generatedTestCase k l er) := by
  simp only [postDispatch, List.mem_flatten, List.mem_map] at h
  obtain ⟨l, ⟨i, _, rfl⟩, hev⟩ := h
  rcases List.mem_append.1 hev with h1 | h2
  · split at h1
    · exact Or.inl ⟨_, List.mem_singleton.1 h1⟩
    · exact absurd h1 (List.not_mem_nil _)
  · split at h2
    · exact Or.inr ⟨_, _, _, List.mem_singleton.1 h2⟩
    · exact absurd h2 (List.not_mem_nil _)

/-! ## Concrete `Do` scenario pieces -/

/-- `http.NewRequest` always succeeding. -/
def okNre : String → String → Option String := fun _ _ => none

/-- A transport that always captures `flatBodyResponse`. -/
def okTransport : LowRequest → Except String HttpResponse :=
  fun _ => .ok flatBodyResponse

/-- A snapshot marshaller that always succeeds. -/
def okMarshal : GeneratedSnapshot → Except String String :=
  fun _ => .ok "testcase-snapshot:"

/-- A default-configured invoker (no endpoint override). -/
def c5Opts : HttpInvokerOptions := { PDP := "", Version := "1.0" }

/-- A request with no verbatim URL, an endpoint override with trailing
slashes, and a path with leading slashes. -/
def c5Request : HttpRequest :=
  { Method := "", Url := "", PDP := "http://pdp.example//", Path := "//orders",
    Headers := [], Body := "" }

/-- C5: for a default-configured invoker, every transport request issued by
`Do` uses the verbatim `Url` when non-empty, and otherwise the join of the
request's endpoint override — defaulting to the root
`http://localhost:17779` — with the request's path — defaulting to `/$`;
and a transport request is issued. -/
theorem C5_url_resolution (opts : HttpInvokerOptions)
    (nre : String → String → Option String)
    (tr : LowRequest → Except String HttpResponse)
    (marshal : GeneratedSnapshot → Except String String)
    (req : HttpRequest) (is : List Interceptor)
    (hpdp : opts.PDP = "")
    (hok : ∀ m u, nre m u = none) :
    (∃ lr, DoEvent.networkCall lr ∈
        (Do (NewHttpInvoker opts) nre tr marshal (some req) is).2) ∧
    (∀ lr, DoEvent.networkCall lr ∈
        (Do (NewHttpInvoker opts) nre tr marshal (some req) is).2 →
      lr.Url =
        (if req.Url = "" then
           UrlJoin (if req.PDP = "" then "http://localhost:17779" else req.PDP)
                   (if req.Path = "" then "/$" else req.Path)
         else req.Url)) := by
  have hcp : (NewHttpInvoker opts).pdp = "http://localhost:17779" := by
    simp [NewHttpInvoker, hpdp, DEFAULT_PDP]
  have hurl : resolveUrl (NewHttpInvoker opts).pdp req =
      (if req.Url = "" then
         UrlJoin (if req.PDP = "" then "http://localhost:17779" else req.PDP)
                 (if req.Path = "" then "/$" else req.Path)
       else req.Url) := by
    rw [hcp, resolveUrl_eq]
  simp only [Do, hok]
  constructor
  · split
    · exact ⟨_, List.mem_append_right _ (List.mem_singleton_self _)⟩
    · exact ⟨_, List.mem_append_right _
        (List.mem_append_left _ (List.mem_singleton_self _))⟩
  · intro lr hmem
    split at hmem
    · rcases List.mem_append.1 hmem with h | h
      · obtain ⟨k, hk⟩ := preDispatch_shape h
        simp at hk
      · have hlr := DoEvent.networkCall.inj (List.mem_singleton.1 h)
        rw [hlr]
        exact hurl
    · rcases List.mem_append.1 hmem with h | h
      · obtain ⟨k, hk⟩ := preDispatch_shape h
        simp at hk
      · rcases List.mem_append.1 h with h1 | h2
        · have hlr := DoEvent.networkCall.inj (List.mem_singleton.1 h1)
          rw [hlr]
          exact hurl
        · rcases postDispatch_shape h2 with ⟨k, hk⟩ | ⟨k, l, er, hk⟩ <;>
            simp at hk

/-- C5 witness: a default-configured invoker, one request whose override
carries trailing slashes and whose path carries leading slashes. -/
theorem C5_url_resolution_witness :
    c5Opts.PDP = "" ∧ (∀ m u, okNre m u = none) ∧
    ((∃ lr, DoEvent.networkCall lr ∈
        (Do (NewHttpInvoker c5Opts) okNre okTransport okMarshal
          (some c5Request) []).2) ∧
    (∀ lr, DoEvent.networkCall lr ∈
        (Do (NewHttpInvoker c5Opts) okNre okTransport okMarshal
          (some c5Request) []).2 →
      lr.Url =
        (if c5Request.Url = "" then
           UrlJoin
             (if c5Request.PDP = "" then "http://localhost:17779"
              else c5Request.PDP)
             (if c5Request.Path = "" then "/$" else c5Request.Path)
         else c5Request.Url))) :=
  ⟨rfl, fun _ _ => rfl,
    C5_url_resolution c5Opts okNre okTransport okMarshal c5Request [] rfl
      (fun _ _ => rfl)⟩

/-! ## Permuted header maps -/

/-- A capture whose header map iterates `A` before `B`. -/
def permResponseA : HttpResponse :=
  { Status := "200 OK", StatusCode := 200, Version := "HTTP/1.1",
    Header := [("A", ["1"]), ("B", ["2"])], ContentLength := 1, Body := "x" }

/-- The same capture, iterating `B` before `A`. -/
def permResponseB : HttpResponse :=
  { Status := "200 OK", StatusCode := 200, Version := "HTTP/1.1",
    Header := [("B", ["2"]), ("A", ["1"])], ContentLength := 1, Body := "x" }

/-- C8 counterexample: two captures equal as Go values — same scalar fields
and the same header-map associations, merely iterated in a different
order — synthesize unequal Expectations: the itemized header-assertion
lists come out in different orders, so the claim's "equal itemized
header-assertion lists" fails under Go's randomized map iteration. -/
theorem C8_permuted_iteration_differs :
    permResponseA.Status = permResponseB.Status ∧
    permResponseA.StatusCode = permResponseB.StatusCode ∧
    permResponseA.Version = permResponseB.Version ∧
    permResponseA.ContentLength = permResponseB.ContentLength ∧
    permResponseA.Body = permResponseB.Body ∧
    permResponseA.Header.Perm permResponseB.Header ∧
    generateExpectation (some permResponseA) ≠
      generateExpectation (some permResponseB) := by
  refine ⟨rfl, rfl, rfl, rfl, rfl, ?_, ?_⟩
  · decide
  · decide

/-- C8 (amended): expectation synthesis is a pure function of the captured
response — no network, I/O or other effect is modelled in its signature —
and for two captures equal as Go values (equal scalar fields, header maps
with the same associations in any iteration order) it produces expectations
with equal status-code assertions, equal body assertions, and header
assertions that agree on presence and total and whose itemized lists are
equal up to permutation (their order follows the randomized map iteration
order, so list equality itself is not guaranteed). -/
theorem C8_synthesis_deterministic_up_to_perm (res1 res2 : HttpResponse)
    (hs : res1.Status = res2.Status)
    (hc : res1.StatusCode = res2.StatusCode)
    (hv : res1.Version = res2.Version)
    (hl : res1.ContentLength = res2.ContentLength)
    (hb : res1.Body = res2.Body)
    (hperm : res1.Header.Perm res2.Header) :
    ∃ e1 e2, generateExpectation (some res1) = some e1 ∧
      generateExpectation (some res2) = some e2 ∧
      e1.StatusCode = e2.StatusCode ∧
      e1.Body = e2.Body ∧
      ((e1.Headers = none ∧ e2.Headers = none) ∨
        (∃ h1 h2, e1.Headers = some h1 ∧ e2.Headers = some h2 ∧
          h1.HasTotal = h2.HasTotal ∧ h1.Items.Perm h2.Items)) := by
  refine ⟨_, _, rfl, rfl, ?_, ?_, ?_⟩
  · simp only [generateExpectation, hc]
  · simp only [generateExpectation, hb]
  · rcases Nat.eq_zero_or_pos res1.Header.length with h0 | h0
    · have h0' : res2.Header.length = 0 := by
        rw [← hperm.length_eq]
        exact h0
      exact Or.inl ⟨by simp [generateExpectation, h0],
        by simp [generateExpectation, h0']⟩
    · have h0' : 0 < res2.Header.length := hperm.length_eq ▸ h0
      refine Or.inr ⟨{ HasTotal := some res1.Header.length,
                       Items := res1.Header.filterMap headerItem },
                     { HasTotal := some res2.Header.length,
                       Items := res2.Header.filterMap headerItem },
                     ?_, ?_, ?_, ?_⟩
      · simp [generateExpectation, h0]
      · simp [generateExpectation, h0']
      · rw [hperm.length_eq]
      · exact hperm.filterMap headerItem

/-- C8 witness: the amended statement instantiated on the two permuted
captures. -/
theorem C8_synthesis_deterministic_up_to_perm_witness :
    permResponseA.Status = permResponseB.Status ∧
    permResponseA.StatusCode = permResponseB.StatusCode ∧
    permResponseA.Version = permResponseB.Version ∧
    permResponseA.ContentLength = permResponseB.ContentLength ∧
    permResponseA.Body = permResponseB.Body ∧
    permResponseA.Header.Perm permResponseB.Header ∧
    (∃ e1 e2, generateExpectation (some permResponseA) = some e1 ∧
      generateExpectation (some permResponseB) = some e2 ∧
      e1.StatusCode = e2.StatusCode ∧
      e1.Body = e2.Body ∧
      ((e1.Headers = none ∧ e2.Headers = none) ∨
        (∃ h1 h2, e1.Headers = some h1 ∧ e2.Headers = some h2 ∧
          h1.HasTotal = h2.HasTotal ∧ h1.Items.Perm h2.Items))) :=
  ⟨rfl, rfl, rfl, rfl, rfl, by decide,
    C8_synthesis_deterministic_up_to_perm permResponseA permResponseB
      rfl rfl rfl rfl rfl (by decide)⟩

/-! ## Discarded snapshot errors -/

/-- Selects the snapshot-generation events of a trace. -/
def genEventSel (ev : DoEvent) : Option (Nat × List String × Option String) :=
  match ev with
  | .generatedTestCase k l er => some (k, l, er)
  | _ => none

theorem preDispatch_no_gen (is : List Interceptor) :
    (preDispatch is).filterMap genEventSel = [] := by
  rw [List.filterMap_eq_nil_iff]
  intro ev hev
  obtain ⟨k, rfl⟩ := preDispatch_shape hev
  rfl

/-- The snapshot-generation events of the post-call dispatch: one per
snapshot-capable interceptor with a non-nil sink, in order, each carrying
`generateTestCase`'s output and returned error. -/
theorem postDispatch_gen (marshal : GeneratedSnapshot → Except String String)
    (g : TestGenerator) (rq : HttpRequest) (rs : HttpResponse) :
    ∀ is : List Interceptor,
      (postDispatch marshal g rq rs is).filterMap genEventSel =
        is.filterMap (fun i =>
          match i.snapshotOut with
          | some (some k) =>
            some (k, (generateTestCase marshal g (some rq) (some rs)).1,
              (generateTestCase marshal g (some rq) (some rs)).2)
          | _ => none)
  | [] => rfl
  | i :: is => by
    have ih := postDispatch_gen marshal g rq rs is
    obtain ⟨eo, so⟩ := i
    simp only [postDispatch, List.map_cons, List.flatten_cons,
      List.filterMap_append, List.filterMap_cons] at ih ⊢
    rw [ih]
    rcases eo with _ | ⟨_ | k⟩ <;> rcases so with _ | ⟨_ | j⟩ <;>
      simp [genEventSel]

/-- C10: whatever the snapshot marshaller does — in particular when it
fails on every input — `Do` still returns the captured response with no
error, and the post-call dispatch still hands every snapshot-capable
interceptor its snapshot-generation event, carrying exactly
`generateTestCase`'s output lines and discarded error. -/
theorem C10_snapshot_error_discarded (c : HttpInvoker)
    (nre : String → String → Option String)
    (tr : LowRequest → Except String HttpResponse)
    (req : HttpRequest) (res : HttpResponse) (is : List Interceptor)
    (hok : ∀ m u, nre m u = none)
    (htr : ∀ lr, tr lr = .ok res) :
    ∀ marshal : GeneratedSnapshot → Except String String,
      (Do c nre tr marshal (some req) is).1 = .ok res ∧
      (Do c nre tr marshal (some req) is).2.filterMap genEventSel =
        is.filterMap (fun i =>
          match i.snapshotOut with
          | some (some k) =>
            some (k,
              (generateTestCase marshal c.generator (some req) (some res)).1,
              (generateTestCase marshal c.generator (some req) (some res)).2)
          | _ => none) := by
  intro marshal
  constructor
  · simp only [Do, hok, htr]
  · simp only [Do, hok, htr]
    rw [List.filterMap_append, List.filterMap_append, preDispatch_no_gen,
      postDispatch_gen]
    rfl

/-- A marshaller failing on every snapshot. -/
def failMarshal : GeneratedSnapshot → Except String String :=
  fun _ => .error "structural error"

/-- An invoker and interceptor list exercising C10: two snapshot-capable
interceptors and one inert one. -/
def c10Invoker : HttpInvoker :=
  NewHttpInvoker { PDP := "", Version := "1.0" }

def c10Request : HttpRequest :=
  { Method := "", Url := "", PDP := "", Path := "/demo", Headers := [],
    Body := "" }

def c10Interceptors : List Interceptor :=
  [{ explanationOut := some (some 0), snapshotOut := some (some 1) },
   { explanationOut := none, snapshotOut := some (some 2) },
   { explanationOut := none, snapshotOut := none }]

/-- C10 witness: with an always-failing marshaller included, `Do` still
returns the captured response and both snapshot-capable interceptors get
their events. -/
theorem C10_snapshot_error_discarded_witness :
    (∀ m u, okNre m u = none) ∧
    (∀ lr, okTransport lr = .ok flatBodyResponse) ∧
    ∀ marshal : GeneratedSnapshot → Except String String,
      (Do c10Invoker okNre okTransport marshal (some c10Request)
        c10Interceptors).1 = .ok flatBodyResponse ∧
      (Do c10Invoker okNre okTransport marshal (some c10Request)
        c10Interceptors).2.filterMap genEventSel =
        c10Interceptors.filterMap (fun i =>
          match i.snapshotOut with
          | some (some k) =>
            some (k,
              (generateTestCase marshal c10Invoker.generator (some c10Request)
                (some flatBodyResponse)).1,
              (generateTestCase marshal c10Invoker.generator (some c10Request)
                (some flatBodyResponse)).2)
          | _ => none) :=
  ⟨fun _ _ => rfl, fun _ => rfl,
    C10_snapshot_error_discarded c10Invoker okNre okTransport c10Request
      flatBodyResponse c10Interceptors (fun _ _ => rfl) (fun _ => rfl)⟩

end Opwire
